import Mathlib

/-!
A verification development for the subscription-merging service.

The core of the repository is `src/services/merger.py`: the functions
`safe_load_yaml`, `apply_prefix` (modelled here as `applyPfx`) and
`merge_clash_configs` (modelled here as `mergeClashConfigs`).

Modelling conventions:

* A parsed YAML value is the inductive type `Yaml` (tagged union of
  scalar / sequence / mapping, with string keys).  A raw document text is
  modelled by its parse result `Option Yaml`, where `none` stands for a
  text on which the YAML parser raises a parse error (`yaml.YAMLError`).
  The library parser and serializer are external capabilities; the
  serializer is total on `Yaml`, so `merge_clash_configs`'s output is
  modelled by the final `Yaml` document itself.

* Python's dynamic failures (`AttributeError` for `.get` on a non-dict or
  `.split`/`.startswith` on a non-string, `TypeError` for iterating a
  non-iterable or item-assignment on a non-dict) are modelled by the
  `Except PyErr` monad; the merge engine is a total Lean function into it.

* Python strings are Lean `String`s, and the handful of Python string
  methods used by the source (`strip`, `upper`, `split(',')`,
  `','.join`, `startswith`, `str(int)`, truthiness) are given explicit
  structural models on the character list so that every definition
  evaluates by kernel reduction.
-/

/-- The whitespace characters stripped by Python's `str.strip()`
(ASCII space, tab, newline, carriage return, vertical tab, form feed). -/
def pySpaceChar (c : Char) : Bool :=
  c = ' ' || c = '\t' || c = '\n' || c = '\r' || c = '\x0b' || c = '\x0c'

/-- Strip `pySpaceChar` characters from both ends of a character list. -/
def pyStripChars (cs : List Char) : List Char :=
  ((cs.dropWhile pySpaceChar).reverse.dropWhile pySpaceChar).reverse

/-- Model of Python `s.strip()`. -/
def pyStrip (s : String) : String := String.mk (pyStripChars s.data)

/-- Model of Python `s.upper()` on the characters the source compares
(ASCII; rule types are ASCII identifiers such as `MATCH`, `DOMAIN`). -/
def pyUpper (s : String) : String := String.mk (s.data.map Char.toUpper)

/-- Split a character list at every occurrence of `sep`
(Python `str.split(sep)` semantics for a one-character separator:
`"".split(',') == ['']`, separators at the ends produce empty parts). -/
def splitCharList (sep : Char) : List Char → List (List Char)
  | [] => [[]]
  | c :: rest =>
    let r := splitCharList sep rest
    if c = sep then [] :: r
    else
      match r with
      | [] => [[c]]
      | g :: gs => (c :: g) :: gs

/-- Model of Python `s.split(sep)` for a one-character separator. -/
def pySplitOn (sep : Char) (s : String) : List String :=
  (splitCharList sep s.data).map String.mk

/-- Join character lists with a separator list (Python `sep.join`). -/
def joinCharList (sep : List Char) : List (List Char) → List Char
  | [] => []
  | [x] => x
  | x :: y :: rest => x ++ sep ++ joinCharList sep (y :: rest)

/-- Model of Python `sep.join(xs)`. -/
def pyJoin (sep : String) (xs : List String) : String :=
  String.mk (joinCharList sep.data (xs.map String.data))

/-- Does `cs` begin with `pat`?  (list-level model of `str.startswith`). -/
def listBegins : List Char → List Char → Bool
  | _, [] => true
  | [], _ :: _ => false
  | c :: cs, p :: ps => c = p && listBegins cs ps

/-- Model of Python `s.startswith(pat)`. -/
def pyStarts (s pat : String) : Bool := listBegins s.data pat.data

/-! ### Decimal representation of naturals

`Nat.repr` (what `str(counter)` produces in Python) is injective; the
collision-avoidance loop of the merger depends on this.  We prove it by
recovering the numeric value from the digit list. -/

/-- Fuel-driven most-significant-first decimal digit list; with fuel at
least the argument it computes the standard decimal representation. -/
def digitCharsAux : Nat → Nat → List Char
  | 0, n => [Nat.digitChar (n % 10)]
  | f + 1, n =>
    if n < 10 then [Nat.digitChar n]
    else digitCharsAux f (n / 10) ++ [Nat.digitChar (n % 10)]

/-- The decimal digit list of `n` (most significant first). -/
def idealDigits (n : Nat) : List Char := digitCharsAux n n

/-- Numeric value of a decimal digit character. -/
def digitVal (c : Char) : Nat := c.toNat - 48

/-- Recover a natural number from a most-significant-first digit list. -/
def decVal (cs : List Char) : Nat := cs.foldl (fun a c => a * 10 + digitVal c) 0

/-! ### Parsed document values -/

/-- A parsed YAML value: the tagged union of scalars, sequences and
(string-keyed, insertion-ordered) mappings that `yaml.safe_load`
produces for the documents this service consumes. -/
inductive Yaml where
  | null
  | bool (b : Bool)
  | int (n : Int)
  | str (s : String)
  | seq (items : List Yaml)
  | map (entries : List (String × Yaml))

/-- Python errors the merge engine can dynamically raise. -/
inductive PyErr where
  | attributeError
  | typeError
deriving DecidableEq

/-- Python truthiness of a parsed value. -/
def truthy : Yaml → Bool
  | .null => false
  | .bool b => b
  | .int n => decide (n ≠ 0)
  | .str s => !s.data.isEmpty
  | .seq items => !items.isEmpty
  | .map entries => !entries.isEmpty

/-- First-match lookup in an insertion-ordered mapping (Python `dict` access;
parsed dictionaries have unique keys, for which first-match is exact). -/
def lookupA : List (String × Yaml) → String → Option Yaml
  | [], _ => none
  | e :: rest, key => if e.1 = key then some e.2 else lookupA rest key

/-- In-place update of an insertion-ordered mapping: replace the first entry
with the given key keeping its position, or append a new entry at the end
(Python `d[key] = v` semantics on insertion-ordered dicts). -/
def setA : List (String × Yaml) → String → Yaml → List (String × Yaml)
  | [], key, v => [(key, v)]
  | e :: rest, key, v => if e.1 = key then (key, v) :: rest else e :: setA rest key v

/-- Python `obj.get(key, dflt)`: `AttributeError` if `obj` is not a dict. -/
def pyGet (v : Yaml) (key : String) (dflt : Yaml) : Except PyErr Yaml :=
  match v with
  | .map entries => .ok ((lookupA entries key).getD dflt)
  | _ => .error .attributeError

/-- Python iteration `for x in v`: sequences yield their items, strings
yield their characters as one-character strings, dicts yield their keys;
other values raise `TypeError`. -/
def pyIter : Yaml → Except PyErr (List Yaml)
  | .seq items => .ok items
  | .str s => .ok (s.data.map fun c => .str (String.mk [c]))
  | .map entries => .ok (entries.map fun e => .str e.1)
  | _ => .error .typeError

/-- Python `v or d`. -/
def pyOr (v d : Yaml) : Yaml := if truthy v then v else d

/-- `safe_load_yaml` (src/services/merger.py lines 7-12): a text whose parse
raises is an empty dict (`none` models the raising parse), and
`yaml.safe_load(content) or {}` coerces a falsy parse to an empty dict. -/
def safeLoadYaml : Option Yaml → Yaml
  | none => .map []
  | some v => if truthy v then v else .map []

/-! ### The merge engine (`merge_clash_configs`) -/

/-- The reserved-name test of `apply_prefix` (merger.py line 29). -/
def reservedName (name : String) : Bool :=
  decide (name = ("DIRECT") ∨ name = ("REJECT") ∨ name = ("GLOBAL") ∨ name = ("Final"))
  || pyStarts name ("Expire:") || pyStarts name ("Traffic:")

/-- `apply_prefix(name, prefix)` (merger.py lines 28-31) on string inputs. -/
def applyPfx (name : String) (label : String) : String :=
  if reservedName name then name else label ++ ("_") ++ name

/-- `f"{original_prefixed}_{counter}"` (merger.py line 64); Python `str(int)`
is decimal, i.e. `Nat.repr`. -/
def suffixedName (orig : String) (k : Nat) : String := orig ++ ("_") ++ Nat.repr k

/-- The collision-avoidance `while` loop (merger.py lines 62-65), with
explicit fuel.  One unit of fuel per membership test; `used.length + 1`
tests always reach a fresh candidate (see `dedupLoop_spec`). -/
def dedupLoop (used : List String) (orig : String) : Nat → Nat → String → String
  | _, 0, cur => cur
  | counter, fuel + 1, cur =>
    if cur ∈ used then dedupLoop used orig (counter + 1) fuel (suffixedName orig counter)
    else cur

/-- The final deduplicated proxy name for prefixed name `orig` given the
running set of used names. -/
def dedupName (used : List String) (orig : String) : String :=
  dedupLoop used orig 1 (used.length + 1) orig

/-- The mutable collections of one `merge_clash_configs` call
(merger.py lines 33-39). -/
structure MSt where
  allProxies : List Yaml
  allGroups : List Yaml
  allRules : List String
  usedProxyNames : List String
  usedGroupNames : List String

/-- Custom-rule preprocessing body (merger.py lines 43-45): keep each rule
stripped, skipping blank lines. -/
def trimmedCustomRules : List String → List String
  | [] => []
  | r :: rest =>
    if (pyStrip r).data.isEmpty then trimmedCustomRules rest
    else pyStrip r :: trimmedCustomRules rest

/-- `if custom_rules:` seeding (merger.py lines 42-45); `None` and `[]` are
both falsy. -/
def initRules : Option (List String) → List String
  | none => []
  | some rs => if rs.isEmpty then [] else trimmedCustomRules rs

def initState (customRules : Option (List String)) : MSt :=
  { allProxies := [], allGroups := [], allRules := initRules customRules,
    usedProxyNames := [], usedGroupNames := [] }

/-- Proxy merging loop (merger.py lines 53-70).  A record that is not a
dict raises on `.get`; a falsy name is skipped; a truthy non-string name
raises inside `apply_prefix` (`name.startswith`). -/
def procProxies (label : String) : MSt → List Yaml → Except PyErr MSt
  | st, [] => .ok st
  | st, p :: rest =>
    match p with
    | .map entries =>
      let nameV := (lookupA entries ("name")).getD .null
      if truthy nameV then
        match nameV with
        | .str s =>
          let finalName := dedupName st.usedProxyNames (applyPfx s label)
          procProxies label
            { st with
              allProxies := st.allProxies ++ [.map (setA entries ("name") (.str finalName))],
              usedProxyNames := finalName :: st.usedProxyNames } rest
        | _ => .error .attributeError
      else procProxies label st rest
    | _ => .error .attributeError

/-- Member rewriting `apply_prefix(m, prefix)` for each group member
(merger.py lines 87-90); a non-string member raises on `.startswith`. -/
def mapMembers (label : String) : List Yaml → Except PyErr (List String)
  | [] => .ok []
  | .str m :: rest =>
    match mapMembers label rest with
    | .ok ms => .ok (applyPfx m label :: ms)
    | .error e => .error e
  | _ :: _ => .error .attributeError

/-- Group merging loop (merger.py lines 73-98): prefix the group name,
rewrite every member, then emit the group only if its prefixed name is
not already used (first-seen-wins; the later group is discarded whole). -/
def procGroups (label : String) : MSt → List Yaml → Except PyErr MSt
  | st, [] => .ok st
  | st, g :: rest =>
    match g with
    | .map entries =>
      let nameV := (lookupA entries ("name")).getD .null
      if truthy nameV then
        match nameV with
        | .str s =>
          let pgName := applyPfx s label
          match pyIter (pyOr ((lookupA entries ("proxies")).getD (.seq [])) (.seq [])) with
          | .error e => .error e
          | .ok memberItems =>
            match mapMembers label memberItems with
            | .error e => .error e
            | .ok newMembers =>
              let g2 : Yaml :=
                .map (setA (setA entries ("name") (.str pgName)) ("proxies")
                  (.seq (newMembers.map Yaml.str)))
              if pgName ∈ st.usedGroupNames then procGroups label st rest
              else
                procGroups label
                  { st with
                    allGroups := st.allGroups ++ [g2],
                    usedGroupNames := pgName :: st.usedGroupNames } rest
        | _ => .error .attributeError
      else procGroups label st rest
    | _ => .error .attributeError

/-- Rule target rewriting for one rule line (merger.py lines 102-115):
fewer than 3 comma-separated fields pass through unchanged; otherwise the
last field (or the second-to-last when the last trims to `no-resolve`)
is replaced by its prefixed form and the line is rejoined. -/
def rewriteRule (label : String) (r : String) : String :=
  let parts := pySplitOn ',' r
  if parts.length ≥ 3 then
    if pyStrip (parts.getD (parts.length - 1) ("")) = ("no-resolve") then
      pyJoin (",") (parts.set (parts.length - 2)
        (applyPfx (parts.getD (parts.length - 2) ("")) label))
    else
      pyJoin (",") (parts.set (parts.length - 1)
        (applyPfx (parts.getD (parts.length - 1) ("")) label))
  else r

/-- Rule merging loop (merger.py lines 101-115); `r.split` raises for a
non-string rule entry. -/
def procRules (label : String) : MSt → List Yaml → Except PyErr MSt
  | st, [] => .ok st
  | st, r :: rest =>
    match r with
    | .str s => procRules label { st with allRules := st.allRules ++ [rewriteRule label s] } rest
    | _ => .error .attributeError

/-- Processing of one `(content, prefix)` pair inside the main loop
(merger.py lines 47-115): proxies, then groups, then rules. -/
def sourcePhase (st : MSt) (entry : Option Yaml × String) : Except PyErr MSt :=
  let config := safeLoadYaml entry.1
  match pyGet config ("proxies") (.seq []) with
  | .error e => .error e
  | .ok pv =>
    match pyIter (pyOr pv (.seq [])) with
    | .error e => .error e
    | .ok proxyItems =>
      match procProxies entry.2 st proxyItems with
      | .error e => .error e
      | .ok st1 =>
        match pyGet config ("proxy-groups") (.seq []) with
        | .error e => .error e
        | .ok gv =>
          match pyIter (pyOr gv (.seq [])) with
          | .error e => .error e
          | .ok groupItems =>
            match procGroups entry.2 st1 groupItems with
            | .error e => .error e
            | .ok st2 =>
              match pyGet config ("rules") (.seq []) with
              | .error e => .error e
              | .ok rv =>
                match pyIter (pyOr rv (.seq [])) with
                | .error e => .error e
                | .ok ruleItems => procRules entry.2 st2 ruleItems

/-- The `for content, prefix in configs` loop. -/
def runConfigs : MSt → List (Option Yaml × String) → Except PyErr MSt
  | st, [] => .ok st
  | st, entry :: rest =>
    match sourcePhase st entry with
    | .error e => .error e
    | .ok st2 => runConfigs st2 rest

/-- The rule dedup key (merger.py lines 122-131): `MATCH` collapses to the
bare key `"MATCH"`; with at least two fields the key is
`TYPE "," trimmed second field`; a one-field non-MATCH line falls back to
the raw line. -/
def ruleKey (rule : String) : String :=
  let parts := pySplitOn ',' rule
  let ruleType := pyUpper (pyStrip (parts.headD ("")))
  if ruleType = ("MATCH") then ("MATCH")
  else if parts.length ≥ 2 then ruleType ++ (",") ++ pyStrip (parts.getD 1 (""))
  else rule

/-- The global rule dedup walk (merger.py lines 117-135): keep the first
line per key, in encounter order. -/
def dedupRulesAux : List String → List String → List String
  | _, [] => []
  | seen, rule :: rest =>
    if (pySplitOn ',' rule).isEmpty then dedupRulesAux seen rest
    else
      let key := ruleKey rule
      if key ∈ seen then dedupRulesAux seen rest
      else rule :: dedupRulesAux (key :: seen) rest

/-- `merge_clash_configs(configs, custom_rules)` (merger.py lines 14-143).
The result is the merged document; serialization (`yaml.dump`, total on
`Yaml` values, key order preserved) is modelled by the identity. -/
def mergeClashConfigs (configs : List (Option Yaml × String))
    (customRules : Option (List String)) : Except PyErr Yaml :=
  match configs with
  | [] => .ok (.map [])
  | (baseContent, _) :: _ =>
    let baseConfig := safeLoadYaml baseContent
    match runConfigs (initState customRules) configs with
    | .error e => .error e
    | .ok st =>
      let uniqueRules := dedupRulesAux [] st.allRules
      match baseConfig with
      | .map entries =>
        .ok (.map (setA (setA (setA entries ("proxies") (.seq st.allProxies))
          ("proxy-groups") (.seq st.allGroups))
          ("rules") (.seq (uniqueRules.map Yaml.str))))
      | _ => .error .typeError

/-! ### Observation helpers on documents (used to state the claims) -/

def docEntries : Yaml → List (String × Yaml)
  | .map entries => entries
  | _ => []

def seqItems : Yaml → List Yaml
  | .seq items => items
  | _ => []

def proxiesOf (doc : Yaml) : List Yaml :=
  seqItems ((lookupA (docEntries doc) ("proxies")).getD .null)

def groupsOf (doc : Yaml) : List Yaml :=
  seqItems ((lookupA (docEntries doc) ("proxy-groups")).getD .null)

def ruleItemsOf (doc : Yaml) : List Yaml :=
  seqItems ((lookupA (docEntries doc) ("rules")).getD .null)

def ruleStrsOf (doc : Yaml) : List String :=
  (ruleItemsOf doc).filterMap fun r => match r with | .str s => some s | _ => none

/-- The `name` of a record, when it is a string. -/
def nameOf (record : Yaml) : Option String :=
  match lookupA (docEntries record) ("name") with
  | some (.str s) => some s
  | _ => none

def namesOf (records : List Yaml) : List String := records.filterMap nameOf

/-- The string members of a group record's member list (with the same
`or []` coercion the engine applies). -/
def membersOf (record : Yaml) : List String :=
  match pyOr ((lookupA (docEntries record) ("proxies")).getD (.seq [])) (.seq []) with
  | .seq items => items.filterMap fun m => match m with | .str s => some s | _ => none
  | _ => []

/-- The items of one top-level collection of a source document, as the
engine sees them (`config.get(key, []) or []`, `[]` if not a sequence). -/
def sourceItems (content : Option Yaml) (key : String) : List Yaml :=
  match safeLoadYaml content with
  | .map entries =>
    match pyOr ((lookupA entries key).getD (.seq [])) (.seq []) with
    | .seq items => items
    | _ => []
  | _ => []

/-- Names of records with a Python-truthy string name. -/
def truthyNamesOf (records : List Yaml) : List String :=
  records.filterMap fun r =>
    match lookupA (docEntries r) ("name") with
    | some (.str s) => if s.data.isEmpty then none else some s
    | _ => none

/-- All proxy and group names defined by one source document. -/
def definedNames (content : Option Yaml) : List String :=
  truthyNamesOf (sourceItems content ("proxies")) ++
    truthyNamesOf (sourceItems content ("proxy-groups"))

/-- The field of a rule line that the engine rewrites (merger.py
lines 104-112), when the line has at least three fields. -/
def ruleTargetField (r : String) : Option String :=
  let parts := pySplitOn ',' r
  if parts.length ≥ 3 then
    if pyStrip (parts.getD (parts.length - 1) ("")) = ("no-resolve") then
      some (parts.getD (parts.length - 2) (""))
    else some (parts.getD (parts.length - 1) (""))
  else none

/-! ### Well-formedness of sources (hypothesis side of the claims) -/

/-- A `name` value the engine never fails on: a string, or falsy (skipped). -/
def nameOkB (v : Yaml) : Bool :=
  match v with
  | .str _ => true
  | v => !truthy v

def isStrB : Yaml → Bool
  | .str _ => true
  | _ => false

/-- A collection value whose `or []` coercion is a sequence of items
satisfying `itemOk`. -/
def wfSeqVal (itemOk : Yaml → Bool) (v : Yaml) : Bool :=
  match pyOr v (.seq []) with
  | .seq items => items.all itemOk
  | _ => false

def wfProxyRec : Yaml → Bool
  | .map entries => nameOkB ((lookupA entries ("name")).getD .null)
  | _ => false

def wfGroupRec : Yaml → Bool
  | .map entries =>
    nameOkB ((lookupA entries ("name")).getD .null) &&
    wfSeqVal isStrB ((lookupA entries ("proxies")).getD (.seq []))
  | _ => false

/-- A well-formed source text: it fails to parse, or parses to something
falsy, or parses to a mapping whose `proxies` / `proxy-groups` / `rules`
values coerce to lists of well-shaped records.  Exactly the shapes on
which the engine's dynamic field accesses cannot raise. -/
def wfDoc (content : Option Yaml) : Bool :=
  match safeLoadYaml content with
  | .map entries =>
    wfSeqVal wfProxyRec ((lookupA entries ("proxies")).getD (.seq [])) &&
    wfSeqVal wfGroupRec ((lookupA entries ("proxy-groups")).getD (.seq [])) &&
    wfSeqVal isStrB ((lookupA entries ("rules")).getD (.seq []))
  | _ => false

/-- Is a reference acceptable relative to a list of defined names:
a reserved token, or one of the defined names (spec section 3, the
reference-resolution invariant's hypothesis). -/
def refOkB (defined : List String) (m : String) : Bool :=
  reservedName m || decide (m ∈ defined)

/-- All group-member references of one source document. -/
def sourceGroupMemberRefs (content : Option Yaml) : List String :=
  (sourceItems content ("proxy-groups")).flatMap membersOf

/-- All rule lines of one source document that are strings. -/
def sourceRuleStrs (content : Option Yaml) : List String :=
  (sourceItems content ("rules")).filterMap fun r =>
    match r with | .str s => some s | _ => none

/-- Hypothesis of the reference-resolution claim: every group-member
reference and every rewritten rule's target field of the source is
reserved or defined in that same source. -/
def refsClosedB (content : Option Yaml) : Bool :=
  (sourceGroupMemberRefs content).all (refOkB (definedNames content)) &&
  (sourceRuleStrs content).all fun r =>
    match ruleTargetField r with
    | some t => refOkB (definedNames content) t
    | none => true

/-! ### Recompositions used to state claims about groups and rules -/

/-- The rewritten form of one source group record together with its
prefixed name, when the record is processable (mirrors the successful
path of `procGroups` for a single record). -/
def rewrittenGroup? (label : String) : Yaml → Option (String × Yaml)
  | .map entries =>
    match (lookupA entries ("name")).getD .null with
    | .str s =>
      if s.data.isEmpty then none
      else
        match pyIter (pyOr ((lookupA entries ("proxies")).getD (.seq [])) (.seq [])) with
        | .ok memberItems =>
          match mapMembers label memberItems with
          | .ok newMembers =>
            some (applyPfx s label,
              .map (setA (setA entries ("name") (.str (applyPfx s label))) ("proxies")
                (.seq (newMembers.map Yaml.str))))
          | .error _ => none
        | .error _ => none
    | _ => none
  | _ => none

/-- First-seen-wins filtering of labelled groups. -/
def keepFirstGroups : List String → List (String × Yaml) → List Yaml
  | _, [] => []
  | seen, (n, g) :: rest =>
    if n ∈ seen then keepFirstGroups seen rest
    else g :: keepFirstGroups (n :: seen) rest

/-- The rule accumulator after all sources are processed (custom rules
first, then each source's rewritten rules in order); empty when the merge
returns early on an empty configs list and never builds one. -/
def mergedRuleAccum (configs : List (Option Yaml × String))
    (customRules : Option (List String)) : List String :=
  match configs with
  | [] => []
  | _ :: _ =>
    match runConfigs (initState customRules) configs with
    | .ok st => st.allRules
    | .error _ => []

/-- The rule rewrite, stated the way the specification words it
(spec section 4.3 step 3d), working from the tail of the field list:
with at least three fields, if the last trims to exactly `no-resolve`
the second-to-last field is prefixed, else the last field is prefixed,
everything else unchanged.  Used as the refinement counterpart of
`rewriteRule`. -/
def rewriteRuleSpec (label : String) (r : String) : String :=
  match (pySplitOn ',' r).reverse with
  | last :: snd :: third :: front =>
    if pyStrip last = ("no-resolve") then
      pyJoin (",") ((last :: applyPfx snd label :: third :: front).reverse)
    else
      pyJoin (",") ((applyPfx last label :: snd :: third :: front).reverse)
  | _ => r

/-- The candidate sequence examined by the collision loop from a given
loop state: the current candidate, then `orig_counter`, `orig_counter+1`, …
(proof device for `dedupLoop`). -/
def candAux (orig : String) (counter : Nat) (cur : String) : Nat → String
  | 0 => cur
  | i + 1 => suffixedName orig (counter + i)

/-- The top-level entries of a document other than the three merged
collections (used to state the frame property). -/
def stripMergedKeys (entries : List (String × Yaml)) : List (String × Yaml) :=
  entries.filter fun e =>
    decide (e.1 ≠ ("proxies") ∧ e.1 ≠ ("proxy-groups") ∧ e.1 ≠ ("rules"))

/-- The group-name registry after scanning a labelled group list
(proof device aligning `keepFirstGroups` with `procGroups`). -/
def seenAfter : List String → List (String × Yaml) → List String
  | seen, [] => seen
  | seen, (n, _) :: rest =>
    if n ∈ seen then seenAfter seen rest else seenAfter (n :: seen) rest

/-! ## Theorems -/

theorem digitCharsAux_irrel (n : Nat) :
    ∀ f₁ f₂, n ≤ f₁ → n ≤ f₂ → digitCharsAux f₁ n = digitCharsAux f₂ n := by
  induction n using Nat.strong_induction_on with
  | _ n ih =>
    intro f₁ f₂ h₁ h₂
    by_cases hlt : n < 10
    · have hmod : n % 10 = n := Nat.mod_eq_of_lt hlt
      cases f₁ <;> cases f₂ <;> simp [digitCharsAux, hlt, hmod]
    · have h10 : 10 ≤ n := Nat.le_of_not_lt hlt
      obtain ⟨g₁, rfl⟩ : ∃ g, f₁ = g + 1 := by
        cases f₁ with
        | zero => omega
        | succ g => exact ⟨g, rfl⟩
      obtain ⟨g₂, rfl⟩ : ∃ g, f₂ = g + 1 := by
        cases f₂ with
        | zero => omega
        | succ g => exact ⟨g, rfl⟩
      have hdiv : n / 10 < n := Nat.div_lt_self (by omega) (by omega)
      have hg₁ : n / 10 ≤ g₁ := by omega
      have hg₂ : n / 10 ≤ g₂ := by omega
      simp only [digitCharsAux, if_neg hlt]
      rw [ih (n / 10) hdiv g₁ g₂ hg₁ hg₂]

theorem idealDigits_eq (n : Nat) :
    idealDigits n =
      if n < 10 then [Nat.digitChar n]
      else idealDigits (n / 10) ++ [Nat.digitChar (n % 10)] := by
  by_cases hlt : n < 10
  · unfold idealDigits
    cases hn : n with
    | zero => simp [digitCharsAux]
    | succ m => simp [digitCharsAux, hn ▸ hlt, hlt]
  · have h10 : 10 ≤ n := Nat.le_of_not_lt hlt
    simp only [if_neg hlt]
    obtain ⟨g, rfl⟩ : ∃ g, n = g + 1 := ⟨n - 1, by omega⟩
    show digitCharsAux (g + 1) (g + 1) = _
    simp only [digitCharsAux, if_neg hlt]
    unfold idealDigits
    rw [digitCharsAux_irrel ((g + 1) / 10) g ((g + 1) / 10) (by omega) (le_refl _)]

theorem digitVal_digitChar : ∀ d, d < 10 → digitVal (Nat.digitChar d) = d := by
  decide

theorem decVal_idealDigits (n : Nat) : decVal (idealDigits n) = n := by
  induction n using Nat.strong_induction_on with
  | _ n ih =>
    rw [idealDigits_eq]
    by_cases hlt : n < 10
    · simp [hlt, decVal, digitVal_digitChar n hlt]
    · have h10 : 10 ≤ n := Nat.le_of_not_lt hlt
      have hdiv : n / 10 < n := Nat.div_lt_self (by omega) (by omega)
      simp only [if_neg hlt, decVal, List.foldl_append, List.foldl_cons, List.foldl_nil]
      have hrec : (idealDigits (n / 10)).foldl (fun a c => a * 10 + digitVal c) 0 = n / 10 :=
        ih (n / 10) hdiv
      rw [hrec, digitVal_digitChar (n % 10) (Nat.mod_lt _ (by omega))]
      omega

theorem idealDigits_injective : Function.Injective idealDigits := by
  intro a b h
  have := decVal_idealDigits a
  rw [h, decVal_idealDigits b] at this
  omega

theorem toDigitsCore_eq_idealDigits :
    ∀ (f n : Nat) (acc : List Char), n < 10 ^ (f + 1) →
      Nat.toDigitsCore 10 (f + 1) n acc = idealDigits n ++ acc := by
  intro f
  induction f with
  | zero =>
    intro n acc hn
    have hlt : n < 10 := by simpa using hn
    have hdiv : n / 10 = 0 := Nat.div_eq_of_lt hlt
    have hunf : Nat.toDigitsCore 10 (0 + 1) n acc =
        if n / 10 = 0 then Nat.digitChar (n % 10) :: acc
        else Nat.toDigitsCore 10 0 (n / 10) (Nat.digitChar (n % 10) :: acc) := rfl
    rw [hunf, if_pos hdiv, idealDigits_eq]
    simp [hlt, Nat.mod_eq_of_lt hlt]
  | succ f ih =>
    intro n acc hn
    have hunf : Nat.toDigitsCore 10 (f + 1 + 1) n acc =
        if n / 10 = 0 then Nat.digitChar (n % 10) :: acc
        else Nat.toDigitsCore 10 (f + 1) (n / 10) (Nat.digitChar (n % 10) :: acc) := rfl
    by_cases hdiv : n / 10 = 0
    · have hlt : n < 10 := by
        by_contra h
        have h10 : 10 ≤ n := Nat.le_of_not_lt h
        have : 1 ≤ n / 10 := Nat.one_le_div_iff (by omega) |>.mpr h10
        omega
      rw [hunf, if_pos hdiv, idealDigits_eq]
      simp [hlt, Nat.mod_eq_of_lt hlt]
    · have hlt : ¬ n < 10 := by
        intro h
        exact hdiv (Nat.div_eq_of_lt h)
      have hstep : n / 10 < 10 ^ (f + 1) := by
        have hpow : (10 : Nat) ^ (f + 1 + 1) = 10 ^ (f + 1) * 10 := pow_succ 10 (f + 1)
        exact (Nat.div_lt_iff_lt_mul (by omega)).mpr (hpow ▸ hn)
      rw [hunf, if_neg hdiv]
      rw [ih (n / 10) (Nat.digitChar (n % 10) :: acc) hstep]
      rw [idealDigits_eq n]
      simp [hlt]

theorem repr_eq_idealDigits (n : Nat) : Nat.repr n = String.mk (idealDigits n) := by
  show (Nat.toDigits 10 n).asString = String.mk (idealDigits n)
  unfold Nat.toDigits
  rw [toDigitsCore_eq_idealDigits n n [] (by
    calc n < 10 ^ n := Nat.lt_pow_self (by omega) n
    _ ≤ 10 ^ (n + 1) := Nat.pow_le_pow_right (by omega) (Nat.le_succ n))]
  simp [List.asString]

theorem natRepr_injective : Function.Injective Nat.repr := by
  intro a b h
  rw [repr_eq_idealDigits, repr_eq_idealDigits] at h
  exact idealDigits_injective (by injection h)

/-! ### Association-list and split lemmas -/

theorem lookupA_setA_self (es : List (String × Yaml)) (k : String) (v : Yaml) :
    lookupA (setA es k v) k = some v := by
  induction es with
  | nil => simp [setA, lookupA]
  | cons e rest ih =>
    by_cases h : e.1 = k
    · simp [setA, h, lookupA]
    · simp [setA, h, lookupA, ih]

theorem lookupA_setA_ne (es : List (String × Yaml)) (k k' : String) (v : Yaml)
    (h : k' ≠ k) : lookupA (setA es k v) k' = lookupA es k' := by
  have hkk : k ≠ k' := fun hh => h hh.symm
  induction es with
  | nil => simp [setA, lookupA, hkk]
  | cons e rest ih =>
    by_cases he : e.1 = k
    · have hne : e.1 ≠ k' := by rw [he]; exact hkk
      simp [setA, he, lookupA, hkk, hne]
    · by_cases he' : e.1 = k'
      · simp [setA, he, lookupA, he', h]
      · simp [setA, he, lookupA, he', ih]

theorem stripMergedKeys_setA (es : List (String × Yaml)) (k : String) (v : Yaml)
    (h : k = ("proxies") ∨ k = ("proxy-groups") ∨ k = ("rules")) :
    stripMergedKeys (setA es k v) = stripMergedKeys es := by
  have hpred : (decide (k ≠ ("proxies") ∧ k ≠ ("proxy-groups") ∧ k ≠ ("rules"))) = false := by
    rcases h with h | h | h <;> simp [h]
  induction es with
  | nil =>
    show List.filter _ [(k, v)] = List.filter _ []
    simp only [List.filter]
    rw [hpred]
  | cons e rest ih =>
    by_cases he : e.1 = k
    · show List.filter _ (if e.1 = k then (k, v) :: rest else e :: setA rest k v) =
        List.filter _ (e :: rest)
      rw [if_pos he]
      show List.filter _ ((k, v) :: rest) = _
      simp only [List.filter]
      rw [hpred]
      have he2 : (decide (e.1 ≠ ("proxies") ∧ e.1 ≠ ("proxy-groups") ∧ e.1 ≠ ("rules"))) = false := by
        rw [he]; exact hpred
      rw [he2]
    · show List.filter _ (if e.1 = k then (k, v) :: rest else e :: setA rest k v) =
        List.filter _ (e :: rest)
      rw [if_neg he]
      show List.filter _ (e :: setA rest k v) = _
      simp only [List.filter]
      cases hp : decide (e.1 ≠ ("proxies") ∧ e.1 ≠ ("proxy-groups") ∧ e.1 ≠ ("rules")) <;>
        simp only [stripMergedKeys] at ih <;> rw [ih]

theorem splitCharList_ne_nil (sep : Char) (cs : List Char) : splitCharList sep cs ≠ [] := by
  cases cs with
  | nil => simp [splitCharList]
  | cons c rest =>
    simp only [splitCharList]
    by_cases h : c = sep
    · simp [h]
    · simp only [h, if_neg h]
      cases hr : splitCharList sep rest <;> simp

theorem pySplitOn_ne_nil (sep : Char) (s : String) : pySplitOn sep s ≠ [] := by
  unfold pySplitOn
  intro h
  exact splitCharList_ne_nil sep s.data (List.map_eq_nil_iff.mp h)

theorem dedupRulesAux_cons (seen : List String) (rule : String) (rest : List String) :
    dedupRulesAux seen (rule :: rest) =
      if ruleKey rule ∈ seen then dedupRulesAux seen rest
      else rule :: dedupRulesAux (ruleKey rule :: seen) rest := by
  have h : (pySplitOn ',' rule).isEmpty = false := by
    cases hsp : pySplitOn ',' rule with
    | nil => exact absurd hsp (pySplitOn_ne_nil ',' rule)
    | cons a l => rfl
  simp [dedupRulesAux, h]

/-! ### The collision-avoidance loop -/

theorem repr_data_ne_nil (n : Nat) : (Nat.repr n).data ≠ [] := by
  rw [repr_eq_idealDigits]
  show idealDigits n ≠ []
  rw [idealDigits_eq]
  by_cases h : n < 10 <;> simp [h]

theorem string_data_append (a b : String) : (a ++ b).data = a.data ++ b.data := by
  cases a; cases b; rfl

theorem suffixedName_data (orig : String) (k : Nat) :
    (suffixedName orig k).data = orig.data ++ ('_' :: (Nat.repr k).data) := by
  show ((orig ++ ("_")) ++ Nat.repr k).data = _
  rw [string_data_append, string_data_append]
  simp

theorem string_mk_data (s : String) : String.mk s.data = s := by
  cases s
  rfl

theorem suffixedName_inj (orig : String) {k₁ k₂ : Nat}
    (h : suffixedName orig k₁ = suffixedName orig k₂) : k₁ = k₂ := by
  have hd := congrArg String.data h
  rw [suffixedName_data, suffixedName_data] at hd
  have hc := List.append_cancel_left hd
  have hr : (Nat.repr k₁).data = (Nat.repr k₂).data := by
    injection hc
  have : Nat.repr k₁ = Nat.repr k₂ := by
    rw [← string_mk_data (Nat.repr k₁), ← string_mk_data (Nat.repr k₂), hr]
  exact natRepr_injective this

theorem suffixedName_ne (orig : String) (k : Nat) : suffixedName orig k ≠ orig := by
  intro h
  have hd := congrArg (fun s => s.data.length) h
  simp only [suffixedName_data, List.length_append, List.length_cons] at hd
  omega

theorem candAux_shift (orig : String) (counter : Nat) (cur : String) (i : Nat) :
    candAux orig (counter + 1) (suffixedName orig counter) i =
      candAux orig counter cur (i + 1) := by
  cases i with
  | zero => simp [candAux]
  | succ i' =>
    show suffixedName orig (counter + 1 + i') = suffixedName orig (counter + (i' + 1))
    congr 1
    omega

theorem dedupLoop_go (used : List String) (orig : String) :
    ∀ (F counter : Nat) (cur : String),
      (∃ i, i < F ∧ candAux orig counter cur i ∉ used) →
      ∃ m, m < F ∧ dedupLoop used orig counter F cur = candAux orig counter cur m ∧
        candAux orig counter cur m ∉ used ∧ ∀ j, j < m → candAux orig counter cur j ∈ used := by
  intro F
  induction F with
  | zero =>
    rintro counter cur ⟨i, hi, _⟩
    omega
  | succ F ih =>
    intro counter cur hex
    by_cases hcur : cur ∈ used
    · have hex' : ∃ i, i < F ∧ candAux orig (counter + 1) (suffixedName orig counter) i ∉ used := by
        obtain ⟨i, hi, hni⟩ := hex
        cases i with
        | zero => exact absurd hcur (by simpa [candAux] using hni)
        | succ i' =>
          refine ⟨i', by omega, ?_⟩
          rw [candAux_shift orig counter cur i']
          exact hni
      obtain ⟨m, hm, heq, hfresh, hprev⟩ := ih (counter + 1) (suffixedName orig counter) hex'
      refine ⟨m + 1, by omega, ?_, ?_, ?_⟩
      · show dedupLoop used orig counter (F + 1) cur = _
        rw [show dedupLoop used orig counter (F + 1) cur =
            (if cur ∈ used then dedupLoop used orig (counter + 1) F (suffixedName orig counter)
             else cur) from rfl, if_pos hcur, heq, candAux_shift orig counter cur m]
      · rw [← candAux_shift orig counter cur m]
        exact hfresh
      · intro j hj
        cases j with
        | zero => exact hcur
        | succ j' =>
          rw [← candAux_shift orig counter cur j']
          exact hprev j' (by omega)
    · refine ⟨0, by omega, ?_, hcur, by omega⟩
      show (if cur ∈ used then dedupLoop used orig (counter + 1) F (suffixedName orig counter)
            else cur) = cur
      rw [if_neg hcur]

theorem cand_fresh_exists (used : List String) (orig : String) :
    ∃ i, i < used.length + 1 ∧ candAux orig 1 orig i ∉ used := by
  by_contra hcon
  push_neg at hcon
  have hinj : Function.Injective (candAux orig 1 orig) := by
    intro i j hij
    cases i with
    | zero =>
      cases j with
      | zero => rfl
      | succ j' => exact absurd hij.symm (suffixedName_ne orig (1 + j'))
    | succ i' =>
      cases j with
      | zero => exact absurd hij (suffixedName_ne orig (1 + i'))
      | succ j' =>
        have := @suffixedName_inj orig (1 + i') (1 + j') hij
        omega
  have hnodup : ((List.range (used.length + 1)).map (candAux orig 1 orig)).Nodup :=
    (List.nodup_range _).map hinj
  have hsub : ((List.range (used.length + 1)).map (candAux orig 1 orig)).toFinset ⊆
      used.toFinset := by
    intro x hx
    rw [List.mem_toFinset] at hx ⊢
    rw [List.mem_map] at hx
    obtain ⟨i, hi, rfl⟩ := hx
    rw [List.mem_range] at hi
    exact hcon i hi
  have h1 : ((List.range (used.length + 1)).map (candAux orig 1 orig)).toFinset.card =
      used.length + 1 := by
    rw [List.toFinset_card_of_nodup hnodup, List.length_map, List.length_range]
  have h2 := Finset.card_le_card hsub
  have h3 := List.toFinset_card_le used
  omega

theorem dedupName_not_mem (used : List String) (orig : String) :
    dedupName used orig ∉ used := by
  obtain ⟨m, _, heq, hfresh, _⟩ :=
    dedupLoop_go used orig (used.length + 1) 1 orig (cand_fresh_exists used orig)
  rw [dedupName, heq]
  exact hfresh

theorem dedupName_spec (used : List String) (orig : String) :
    (orig ∉ used → dedupName used orig = orig) ∧
    (orig ∈ used → ∃ k, 1 ≤ k ∧ dedupName used orig = suffixedName orig k ∧
      suffixedName orig k ∉ used ∧ ∀ j, 1 ≤ j → j < k → suffixedName orig j ∈ used) := by
  obtain ⟨m, hm, heq, hfresh, hprev⟩ :=
    dedupLoop_go used orig (used.length + 1) 1 orig (cand_fresh_exists used orig)
  constructor
  · intro h
    cases m with
    | zero => rw [dedupName, heq]; rfl
    | succ m' => exact absurd (hprev 0 (by omega)) h
  · intro h
    cases m with
    | zero => exact absurd h (by simpa [candAux] using hfresh)
    | succ m' =>
      refine ⟨m' + 1, by omega, ?_, ?_, ?_⟩
      · rw [dedupName, heq]
        show suffixedName orig (1 + m') = suffixedName orig (m' + 1)
        congr 1
        omega
      · have : candAux orig 1 orig (m' + 1) = suffixedName orig (m' + 1) := by
          show suffixedName orig (1 + m') = suffixedName orig (m' + 1)
          congr 1
          omega
        rw [← this]
        exact hfresh
      · intro j hj1 hjm
        have hjc : candAux orig 1 orig j ∈ used := hprev j (by omega)
        obtain ⟨j', rfl⟩ : ∃ j'', j = j'' + 1 := ⟨j - 1, by omega⟩
        have : candAux orig 1 orig (j' + 1) = suffixedName orig (j' + 1) := by
          show suffixedName orig (1 + j') = suffixedName orig (j' + 1)
          congr 1
          omega
        rw [← this]
        exact hjc

/-! ### Elimination lemmas for the well-formedness predicates -/

theorem isStrB_iff (m : Yaml) : isStrB m = true ↔ ∃ s, m = Yaml.str s := by
  cases m <;> simp [isStrB]

theorem nameOkB_truthy (v : Yaml) (h1 : nameOkB v = true) (h2 : truthy v = true) :
    ∃ s, v = Yaml.str s := by
  cases v with
  | str s => exact ⟨s, rfl⟩
  | null => simp [truthy] at h2
  | bool b => simp [nameOkB, truthy] at h1 h2; simp [h2] at h1
  | int n => simp [nameOkB, truthy] at h1 h2; simp [h2] at h1
  | seq l => simp [nameOkB, truthy] at h1 h2; simp [h2] at h1
  | map es => simp [nameOkB, truthy] at h1 h2; simp [h2] at h1

theorem wfSeqVal_elim (itemOk : Yaml → Bool) (v : Yaml) (h : wfSeqVal itemOk v = true) :
    ∃ items, pyOr v (.seq []) = .seq items ∧ ∀ x ∈ items, itemOk x = true := by
  unfold wfSeqVal at h
  cases hv : pyOr v (.seq []) with
  | seq items =>
    rw [hv] at h
    exact ⟨items, rfl, by simpa [List.all_eq_true] using h⟩
  | null => rw [hv] at h; simp at h
  | bool b => rw [hv] at h; simp at h
  | int n => rw [hv] at h; simp at h
  | str s => rw [hv] at h; simp at h
  | map es => rw [hv] at h; simp at h

theorem wfDoc_elim (content : Option Yaml) (h : wfDoc content = true) :
    ∃ entries, safeLoadYaml content = .map entries ∧
      wfSeqVal wfProxyRec ((lookupA entries ("proxies")).getD (.seq [])) = true ∧
      wfSeqVal wfGroupRec ((lookupA entries ("proxy-groups")).getD (.seq [])) = true ∧
      wfSeqVal isStrB ((lookupA entries ("rules")).getD (.seq [])) = true := by
  unfold wfDoc at h
  cases hl : safeLoadYaml content with
  | map entries =>
    rw [hl] at h
    simp only [Bool.and_eq_true] at h
    exact ⟨entries, rfl, h.1.1, h.1.2, h.2⟩
  | null => rw [hl] at h; simp at h
  | bool b => rw [hl] at h; simp at h
  | int n => rw [hl] at h; simp at h
  | str s => rw [hl] at h; simp at h
  | seq l => rw [hl] at h; simp at h

/-! ### Well-formed sources never raise -/

theorem mapMembers_ok (label : String) (items : List Yaml)
    (h : ∀ m ∈ items, isStrB m = true) : ∃ ms, mapMembers label items = .ok ms := by
  induction items with
  | nil => exact ⟨[], rfl⟩
  | cons m rest ih =>
    obtain ⟨s, rfl⟩ := (isStrB_iff m).mp (h m (by simp))
    obtain ⟨ms, hms⟩ := ih (fun x hx => h x (by simp [hx]))
    exact ⟨applyPfx s label :: ms, by simp [mapMembers, hms]⟩

theorem procProxies_ok (label : String) (items : List Yaml)
    (h : ∀ p ∈ items, wfProxyRec p = true) :
    ∀ st, ∃ st', procProxies label st items = .ok st' := by
  induction items with
  | nil => exact fun st => ⟨st, rfl⟩
  | cons p rest ih =>
    intro st
    have hp := h p (by simp)
    have hrest := fun x hx => h x (List.mem_cons_of_mem _ hx)
    cases p with
    | map entries =>
      simp only [wfProxyRec] at hp
      by_cases ht : truthy ((lookupA entries ("name")).getD .null) = true
      · obtain ⟨s, hs⟩ := nameOkB_truthy _ hp ht
        obtain ⟨st', hst'⟩ := ih hrest
          { st with
            allProxies := st.allProxies ++
              [.map (setA entries ("name")
                (.str (dedupName st.usedProxyNames (applyPfx s label))))],
            usedProxyNames :=
              dedupName st.usedProxyNames (applyPfx s label) :: st.usedProxyNames }
        refine ⟨st', ?_⟩
        simp only [procProxies, hs] at ht ⊢
        rw [if_pos ht]
        exact hst'
      · obtain ⟨st', hst'⟩ := ih hrest st
        refine ⟨st', ?_⟩
        simp only [procProxies]
        rw [if_neg ht]
        exact hst'
    | null => simp [wfProxyRec] at hp
    | bool b => simp [wfProxyRec] at hp
    | int n => simp [wfProxyRec] at hp
    | str s => simp [wfProxyRec] at hp
    | seq l => simp [wfProxyRec] at hp

theorem procGroups_ok (label : String) (items : List Yaml)
    (h : ∀ g ∈ items, wfGroupRec g = true) :
    ∀ st, ∃ st', procGroups label st items = .ok st' := by
  induction items with
  | nil => exact fun st => ⟨st, rfl⟩
  | cons g rest ih =>
    intro st
    have hg := h g (by simp)
    have hrest := fun x hx => h x (List.mem_cons_of_mem _ hx)
    cases g with
    | map entries =>
      simp only [wfGroupRec, Bool.and_eq_true] at hg
      by_cases ht : truthy ((lookupA entries ("name")).getD .null) = true
      · obtain ⟨s, hs⟩ := nameOkB_truthy _ hg.1 ht
        obtain ⟨members, hmem, hmemok⟩ := wfSeqVal_elim _ _ hg.2
        obtain ⟨ms, hms⟩ := mapMembers_ok label members hmemok
        by_cases hdup : applyPfx s label ∈ st.usedGroupNames
        · obtain ⟨st', hst'⟩ := ih hrest st
          refine ⟨st', ?_⟩
          simp only [procGroups, hs] at ht ⊢
          rw [if_pos ht, hmem]
          simp only [pyIter, hms]
          rw [if_pos hdup]
          exact hst'
        · obtain ⟨st', hst'⟩ := ih hrest
            { st with
              allGroups := st.allGroups ++
                [.map (setA (setA entries ("name") (.str (applyPfx s label))) ("proxies")
                  (.seq (ms.map Yaml.str)))],
              usedGroupNames := applyPfx s label :: st.usedGroupNames }
          refine ⟨st', ?_⟩
          simp only [procGroups, hs] at ht ⊢
          rw [if_pos ht, hmem]
          simp only [pyIter, hms]
          rw [if_neg hdup]
          exact hst'
      · obtain ⟨st', hst'⟩ := ih hrest st
        refine ⟨st', ?_⟩
        simp only [procGroups]
        rw [if_neg ht]
        exact hst'
    | null => simp [wfGroupRec] at hg
    | bool b => simp [wfGroupRec] at hg
    | int n => simp [wfGroupRec] at hg
    | str s => simp [wfGroupRec] at hg
    | seq l => simp [wfGroupRec] at hg

theorem procRules_ok (label : String) (items : List Yaml)
    (h : ∀ r ∈ items, isStrB r = true) :
    ∀ st, ∃ st', procRules label st items = .ok st' := by
  induction items with
  | nil => exact fun st => ⟨st, rfl⟩
  | cons r rest ih =>
    intro st
    obtain ⟨s, rfl⟩ := (isStrB_iff r).mp (h r (by simp))
    obtain ⟨st', hst'⟩ := ih (fun x hx => h x (by simp [hx]))
      { st with allRules := st.allRules ++ [rewriteRule label s] }
    exact ⟨st', by simpa [procRules] using hst'⟩

theorem sourcePhase_ok (content : Option Yaml) (label : String)
    (h : wfDoc content = true) :
    ∀ st, ∃ st', sourcePhase st (content, label) = .ok st' := by
  intro st
  obtain ⟨entries, hload, hwp, hwg, hwr⟩ := wfDoc_elim content h
  obtain ⟨pitems, hpor, hpok⟩ := wfSeqVal_elim _ _ hwp
  obtain ⟨gitems, hgor, hgok⟩ := wfSeqVal_elim _ _ hwg
  obtain ⟨ritems, hror, hrok⟩ := wfSeqVal_elim _ _ hwr
  obtain ⟨st1, hst1⟩ := procProxies_ok label pitems hpok st
  obtain ⟨st2, hst2⟩ := procGroups_ok label gitems hgok st1
  obtain ⟨st3, hst3⟩ := procRules_ok label ritems hrok st2
  refine ⟨st3, ?_⟩
  simp only [sourcePhase, hload, pyGet, hpor, hgor, hror, pyIter, hst1, hst2, hst3]

theorem runConfigs_ok (configs : List (Option Yaml × String))
    (h : ∀ e ∈ configs, wfDoc e.1 = true) :
    ∀ st, ∃ st', runConfigs st configs = .ok st' := by
  induction configs with
  | nil => exact fun st => ⟨st, rfl⟩
  | cons e rest ih =>
    intro st
    obtain ⟨c, l⟩ := e
    obtain ⟨st1, hst1⟩ := sourcePhase_ok c l (h (c, l) (by simp)) st
    obtain ⟨st', hst'⟩ := ih (fun x hx => h x (List.mem_cons_of_mem _ hx)) st1
    exact ⟨st', by simp [runConfigs, hst1, hst']⟩

/-! ### Claims C1, C7, C8 -/

/-- C1 (counterexample): the claim "`merge_clash_configs` never raises for
malformed document content" is false as stated: a document text that
parses to a YAML sequence (well-formed YAML, malformed as a config) is
truthy, survives `safe_load_yaml` unchanged, and the engine then raises
`AttributeError` on `config.get("proxies", [])`. -/
theorem C1_counterexample :
    mergeClashConfigs [(some (.seq [Yaml.null]), ("s"))] none = .error .attributeError := rfl

/-- C1 (amended): a document text whose parse raises is degraded to an
empty document, and the merge completes and returns a serialized result
whenever every source is well formed in the sense of `wfDoc` (it fails
to parse, parses to a falsy value, or parses to a mapping with
list-shaped collections of well-shaped records); it is not total on
truthy non-mapping parses. -/
theorem C1_amended_wf_no_raise (configs : List (Option Yaml × String))
    (customRules : Option (List String))
    (h : ∀ e ∈ configs, wfDoc e.1 = true) :
    ∃ doc, mergeClashConfigs configs customRules = .ok doc := by
  cases configs with
  | nil => exact ⟨.map [], rfl⟩
  | cons e rest =>
    obtain ⟨c, l⟩ := e
    obtain ⟨st', hrun⟩ := runConfigs_ok ((c, l) :: rest) h (initState customRules)
    obtain ⟨entries, hentries, -, -, -⟩ := wfDoc_elim c (h (c, l) (by simp))
    refine ⟨Yaml.map (setA (setA (setA entries ("proxies") (.seq st'.allProxies))
      ("proxy-groups") (.seq st'.allGroups)) ("rules")
      (.seq ((dedupRulesAux [] st'.allRules).map Yaml.str))), ?_⟩
    simp [mergeClashConfigs, hrun, hentries]

theorem C1_witness :
    (∀ e ∈ [((none : Option Yaml), ("w"))], wfDoc e.1 = true) ∧
    ∃ doc, mergeClashConfigs [((none : Option Yaml), ("w"))] none = .ok doc :=
  ⟨by decide, C1_amended_wf_no_raise [(none, ("w"))] none (by decide)⟩

/-- C7: `apply_prefix` is a pure total function on strings; it returns the
name unchanged exactly when it is one of the reserved literals `DIRECT`,
`REJECT`, `GLOBAL`, `Final` or starts with `Expire:` or `Traffic:`, and
otherwise returns `prefix + "_" + name`. -/
theorem C7_applyPfx_total_spec (name label : String) :
    applyPfx name label =
      if name = ("DIRECT") ∨ name = ("REJECT") ∨ name = ("GLOBAL") ∨ name = ("Final") ∨
          pyStarts name ("Expire:") = true ∨ pyStarts name ("Traffic:") = true
      then name else label ++ ("_") ++ name := by
  by_cases h : name = ("DIRECT") ∨ name = ("REJECT") ∨ name = ("GLOBAL") ∨ name = ("Final") ∨
      pyStarts name ("Expire:") = true ∨ pyStarts name ("Traffic:") = true
  · rw [if_pos h]
    have hres : reservedName name = true := by
      unfold reservedName
      rcases h with h | h | h | h | h | h <;> simp [h]
    simp [applyPfx, hres]
  · rw [if_neg h]
    push_neg at h
    obtain ⟨h1, h2, h3, h4, h5, h6⟩ := h
    have hres : reservedName name = false := by
      unfold reservedName
      simp [h1, h2, h3, h4, h5, h6]
    simp [applyPfx, hres]

/-- C8: merging an empty configs list returns the serialization of the
empty mapping and never raises, whatever the custom rules are. -/
theorem C8_empty_configs (customRules : Option (List String)) :
    mergeClashConfigs [] customRules = .ok (.map []) := rfl

/-! ### Claim C6: the per-line rule rewrite -/

theorem list_set_append_right {α : Type} (l1 l2 : List α) (i : Nat) (v : α) :
    (l1 ++ l2).set (l1.length + i) v = l1 ++ l2.set i v := by
  induction l1 with
  | nil => simp
  | cons a l ih =>
    show (a :: (l ++ l2)).set (l.length + 1 + i) v = a :: (l ++ l2.set i v)
    rw [show l.length + 1 + i = (l.length + i) + 1 from by omega]
    rw [List.set_cons_succ, ih]

theorem list_getD_append_right {α : Type} (l1 l2 : List α) (i : Nat) (d : α) :
    (l1 ++ l2).getD (l1.length + i) d = l2.getD i d := by
  induction l1 with
  | nil => simp
  | cons a l ih =>
    show (a :: (l ++ l2)).getD (l.length + 1 + i) d = _
    rw [show l.length + 1 + i = (l.length + i) + 1 from by omega]
    rw [List.getD_cons_succ, ih]

theorem rewriteRule_eq_spec (label : String) (r : String) :
    rewriteRule label r = rewriteRuleSpec label r := by
  simp only [rewriteRule, rewriteRuleSpec]
  rcases hrev : (pySplitOn ',' r).reverse with _ | ⟨last, _ | ⟨snd, _ | ⟨third, front⟩⟩⟩
  · have hp : pySplitOn ',' r = [] := by
      rw [← List.reverse_reverse (pySplitOn ',' r), hrev]; rfl
    simp [hp]
  · have hp : pySplitOn ',' r = [last] := by
      rw [← List.reverse_reverse (pySplitOn ',' r), hrev]; rfl
    simp [hp]
  · have hp : pySplitOn ',' r = [snd, last] := by
      rw [← List.reverse_reverse (pySplitOn ',' r), hrev]; rfl
    simp [hp]
  · have hp : pySplitOn ',' r = front.reverse ++ [third, snd, last] := by
      rw [← List.reverse_reverse (pySplitOn ',' r), hrev]
      simp
    rw [hp]
    have hlen : (front.reverse ++ [third, snd, last]).length = front.reverse.length + 3 := by
      simp
    rw [hlen, if_pos (by omega : front.reverse.length + 3 ≥ 3)]
    have h1 : front.reverse.length + 3 - 1 = front.reverse.length + 2 := by omega
    have h2 : front.reverse.length + 3 - 2 = front.reverse.length + 1 := by omega
    rw [h1, h2, list_getD_append_right, list_getD_append_right,
        list_set_append_right, list_set_append_right]
    show (if pyStrip last = ("no-resolve")
        then pyJoin (",") (front.reverse ++ [third, applyPfx snd label, last])
        else pyJoin (",") (front.reverse ++ [third, snd, applyPfx last label])) =
      (if pyStrip last = ("no-resolve")
        then pyJoin (",") ((last :: applyPfx snd label :: third :: front).reverse)
        else pyJoin (",") ((applyPfx last label :: snd :: third :: front).reverse))
    by_cases hnr : pyStrip last = ("no-resolve")
    · rw [if_pos hnr, if_pos hnr]
      congr 1
      simp
    · rw [if_neg hnr, if_neg hnr]
      congr 1
      simp

/-- C6: each subscription rule line with fewer than 3 comma-separated
fields is accumulated unchanged; otherwise the last field (or the
second-to-last when the last field trims to exactly `no-resolve`) is
replaced by its `apply_prefix` form, every other field is untouched, and
the line is rejoined with commas — stated as the equality of the
engine's rewrite with the specification's tail-first description, plus
the specification's concrete example. -/
theorem C6_rule_rewrite :
    (∀ label r, rewriteRule label r = rewriteRuleSpec label r) ∧
    rewriteRule ("subX") ("IP-CIDR,10.0.0.0/8,ProxyA,no-resolve") =
      ("IP-CIDR,10.0.0.0/8,subX_ProxyA,no-resolve") ∧
    rewriteRule ("s") ("MATCH,Final") = ("MATCH,Final") :=
  ⟨rewriteRule_eq_spec, rfl, rfl⟩

/-! ### Claim C9: the frame on top-level keys -/

/-- C9: for a non-empty configs list whose first document parses to a
mapping, every top-level key other than `proxies`, `proxy-groups` and
`rules` appears in the merged document unmodified and in its original
relative order, only those three keys are replaced by merged
collections, and no other keys are added. -/
theorem C9_frame (configs : List (Option Yaml × String))
    (customRules : Option (List String)) (doc : Yaml)
    (baseContent : Option Yaml) (label : String)
    (rest : List (Option Yaml × String)) (entries : List (String × Yaml))
    (hc : configs = (baseContent, label) :: rest)
    (hb : safeLoadYaml baseContent = .map entries)
    (hm : mergeClashConfigs configs customRules = .ok doc) :
    ∃ outEntries, doc = .map outEntries ∧
      stripMergedKeys outEntries = stripMergedKeys entries ∧
      ∀ k, k ≠ ("proxies") → k ≠ ("proxy-groups") → k ≠ ("rules") →
        lookupA outEntries k = lookupA entries k := by
  subst hc
  simp only [mergeClashConfigs] at hm
  cases hrun : runConfigs (initState customRules) ((baseContent, label) :: rest) with
  | error e => rw [hrun] at hm; simp at hm
  | ok st =>
    rw [hrun, hb] at hm
    simp only [Except.ok.injEq] at hm
    refine ⟨_, hm.symm, ?_, ?_⟩
    · rw [stripMergedKeys_setA _ _ _ (Or.inr (Or.inr rfl)),
          stripMergedKeys_setA _ _ _ (Or.inr (Or.inl rfl)),
          stripMergedKeys_setA _ _ _ (Or.inl rfl)]
    · intro k hk1 hk2 hk3
      rw [lookupA_setA_ne _ _ _ _ hk3, lookupA_setA_ne _ _ _ _ hk2,
          lookupA_setA_ne _ _ _ _ hk1]

theorem C9_witness :
    ∃ outEntries,
      Yaml.map [(("port"), Yaml.int 1), (("proxies"), Yaml.seq []),
        (("proxy-groups"), Yaml.seq []), (("rules"), Yaml.seq [])] = .map outEntries ∧
      stripMergedKeys outEntries = stripMergedKeys [(("port"), Yaml.int 1)] ∧
      ∀ k, k ≠ ("proxies") → k ≠ ("proxy-groups") → k ≠ ("rules") →
        lookupA outEntries k = lookupA [(("port"), Yaml.int 1)] k :=
  C9_frame [(some (.map [(("port"), Yaml.int 1)]), ("s"))] none
    (Yaml.map [(("port"), Yaml.int 1), (("proxies"), Yaml.seq []),
      (("proxy-groups"), Yaml.seq []), (("rules"), Yaml.seq [])])
    (some (.map [(("port"), Yaml.int 1)])) ("s") [] [(("port"), Yaml.int 1)]
    rfl rfl rfl

/-! ### Per-phase facts about the processing loops -/

theorem namesOf_append (l1 l2 : List Yaml) :
    namesOf (l1 ++ l2) = namesOf l1 ++ namesOf l2 := by
  simp [namesOf, List.filterMap_append]

theorem nameOf_setName (entries : List (String × Yaml)) (f : String) :
    nameOf (.map (setA entries ("name") (.str f))) = some f := by
  simp [nameOf, docEntries, lookupA_setA_self]

theorem procProxies_facts (label : String) (items : List Yaml) :
    ∀ st st', procProxies label st items = .ok st' →
      st'.allGroups = st.allGroups ∧ st'.allRules = st.allRules ∧
      st'.usedGroupNames = st.usedGroupNames ∧
      (∀ n, n ∈ st.usedProxyNames → n ∈ st'.usedProxyNames) ∧
      st'.allProxies.length = st.allProxies.length +
        items.countP (fun p => truthy ((lookupA (docEntries p) ("name")).getD .null)) ∧
      ((namesOf st.allProxies).Nodup →
        (∀ n, n ∈ namesOf st.allProxies ↔ n ∈ st.usedProxyNames) →
        ((namesOf st'.allProxies).Nodup ∧
          (∀ n, n ∈ namesOf st'.allProxies ↔ n ∈ st'.usedProxyNames))) ∧
      (∀ p ∈ items, ∀ s, lookupA (docEntries p) ("name") = some (.str s) →
        ¬s.data.isEmpty = true → applyPfx s label ∈ st'.usedProxyNames) := by
  induction items with
  | nil =>
    intro st st' h
    injection h with h
    subst h
    refine ⟨rfl, rfl, rfl, fun n hn => hn, by simp [List.countP_nil], fun h1 h2 => ⟨h1, h2⟩, ?_⟩
    intro p hp
    simp at hp
  | cons p rest ih =>
    intro st st' h
    cases p with
    | map entries =>
      simp only [procProxies] at h
      cases hnv : (lookupA entries ("name")).getD .null with
      | str s =>
        rw [hnv] at h
        by_cases ht : truthy (.str s) = true
        · rw [if_pos ht] at h
          set f := dedupName st.usedProxyNames (applyPfx s label) with hf
          set st2 : MSt :=
            { st with
              allProxies := st.allProxies ++ [.map (setA entries ("name") (.str f))],
              usedProxyNames := f :: st.usedProxyNames } with hst2
          obtain ⟨hG, hR, hUG, hmono, hlen, hinv, havail⟩ := ih st2 st' h
          refine ⟨hG, hR, hUG, ?_, ?_, ?_, ?_⟩
          · intro n hn
            exact hmono n (List.mem_cons_of_mem _ hn)
          · rw [hlen]
            have : st2.allProxies.length = st.allProxies.length + 1 := by
              simp [hst2]
            rw [this, List.countP_cons]
            simp [docEntries, hnv, ht]
            omega
          · intro hnd hiff
            apply hinv
            · rw [hst2]
              show (namesOf (st.allProxies ++ [.map (setA entries ("name") (.str f))])).Nodup
              rw [namesOf_append]
              have hone : namesOf [Yaml.map (setA entries ("name") (.str f))] = [f] := by
                simp [namesOf, nameOf_setName]
              rw [hone, List.nodup_append]
              refine ⟨hnd, List.nodup_singleton f, fun a ha hb => ?_⟩
              rw [List.mem_singleton] at hb
              subst hb
              exact dedupName_not_mem st.usedProxyNames (applyPfx s label) ((hiff f).mp ha)
            · intro n
              rw [hst2]
              show n ∈ namesOf (st.allProxies ++ [.map (setA entries ("name") (.str f))]) ↔
                n ∈ f :: st.usedProxyNames
              rw [namesOf_append]
              have hone : namesOf [Yaml.map (setA entries ("name") (.str f))] = [f] := by
                simp [namesOf, nameOf_setName]
              rw [hone]
              simp only [List.mem_append, List.mem_cons, List.not_mem_nil, or_false]
              constructor
              · rintro (hn | hn)
                · exact Or.inr ((hiff n).mp hn)
                · exact Or.inl hn
              · rintro (hn | hn)
                · exact Or.inr hn
                · exact Or.inl ((hiff n).mpr hn)
          · intro q hq s0 hq1 hq2
            rcases List.mem_cons.mp hq with rfl | hq
            · have : (lookupA (docEntries (Yaml.map entries)) ("name")).getD .null =
                  Yaml.str s0 := by
                rw [hq1]
                rfl
              rw [docEntries] at this
              rw [hnv] at this
              injection this with this
              subst this
              by_cases horig : applyPfx s label ∈ st.usedProxyNames
              · exact hmono _ (List.mem_cons_of_mem _ horig)
              · have : f = applyPfx s label :=
                  (dedupName_spec st.usedProxyNames (applyPfx s label)).1 horig
                rw [← this]
                exact hmono f (List.mem_cons_self _ _)
            · exact havail q hq s0 hq1 hq2
        · rw [if_neg ht] at h
          obtain ⟨hG, hR, hUG, hmono, hlen, hinv, havail⟩ := ih st st' h
          refine ⟨hG, hR, hUG, hmono, ?_, hinv, ?_⟩
          · rw [hlen, List.countP_cons]
            simp [docEntries, hnv, ht]
          · intro q hq s0 hq1 hq2
            rcases List.mem_cons.mp hq with rfl | hq
            · exfalso
              have : (lookupA (docEntries (Yaml.map entries)) ("name")).getD .null =
                  Yaml.str s0 := by
                rw [hq1]; rfl
              rw [docEntries] at this
              rw [hnv] at this
              injection this with this
              subst this
              apply ht
              simp [truthy, hq2]
            · exact havail q hq s0 hq1 hq2
      | null =>
        rw [hnv] at h
        simp only [truthy, Bool.false_eq_true, if_false] at h
        obtain ⟨hG, hR, hUG, hmono, hlen, hinv, havail⟩ := ih st st' h
        refine ⟨hG, hR, hUG, hmono, ?_, hinv, ?_⟩
        · rw [hlen, List.countP_cons]
          simp [docEntries, hnv, truthy]
        · intro q hq s0 hq1 hq2
          rcases List.mem_cons.mp hq with rfl | hq
          · exfalso
            have : (lookupA (docEntries (Yaml.map entries)) ("name")).getD .null =
                Yaml.str s0 := by
              rw [hq1]; rfl
            rw [docEntries] at this
            rw [hnv] at this
            exact Yaml.noConfusion this
          · exact havail q hq s0 hq1 hq2
      | bool b =>
        rw [hnv] at h
        by_cases hb : truthy (.bool b) = true
        · rw [if_pos hb] at h
          exact absurd h (by simp)
        · rw [if_neg hb] at h
          obtain ⟨hG, hR, hUG, hmono, hlen, hinv, havail⟩ := ih st st' h
          refine ⟨hG, hR, hUG, hmono, ?_, hinv, ?_⟩
          · rw [hlen, List.countP_cons]
            simp only [docEntries, hnv]
            simp [hb]
          · intro q hq s0 hq1 hq2
            rcases List.mem_cons.mp hq with rfl | hq
            · exfalso
              have : (lookupA (docEntries (Yaml.map entries)) ("name")).getD .null =
                  Yaml.str s0 := by
                rw [hq1]; rfl
              rw [docEntries] at this
              rw [hnv] at this
              exact Yaml.noConfusion this
            · exact havail q hq s0 hq1 hq2
      | int n =>
        rw [hnv] at h
        by_cases hb : truthy (.int n) = true
        · rw [if_pos hb] at h
          exact absurd h (by simp)
        · rw [if_neg hb] at h
          obtain ⟨hG, hR, hUG, hmono, hlen, hinv, havail⟩ := ih st st' h
          refine ⟨hG, hR, hUG, hmono, ?_, hinv, ?_⟩
          · rw [hlen, List.countP_cons]
            simp only [docEntries, hnv]
            simp [hb]
          · intro q hq s0 hq1 hq2
            rcases List.mem_cons.mp hq with rfl | hq
            · exfalso
              have : (lookupA (docEntries (Yaml.map entries)) ("name")).getD .null =
                  Yaml.str s0 := by
                rw [hq1]; rfl
              rw [docEntries] at this
              rw [hnv] at this
              exact Yaml.noConfusion this
            · exact havail q hq s0 hq1 hq2
      | seq l =>
        rw [hnv] at h
        by_cases hb : truthy (.seq l) = true
        · rw [if_pos hb] at h
          exact absurd h (by simp)
        · rw [if_neg hb] at h
          obtain ⟨hG, hR, hUG, hmono, hlen, hinv, havail⟩ := ih st st' h
          refine ⟨hG, hR, hUG, hmono, ?_, hinv, ?_⟩
          · rw [hlen, List.countP_cons]
            simp only [docEntries, hnv]
            simp [hb]
          · intro q hq s0 hq1 hq2
            rcases List.mem_cons.mp hq with rfl | hq
            · exfalso
              have : (lookupA (docEntries (Yaml.map entries)) ("name")).getD .null =
                  Yaml.str s0 := by
                rw [hq1]; rfl
              rw [docEntries] at this
              rw [hnv] at this
              exact Yaml.noConfusion this
            · exact havail q hq s0 hq1 hq2
      | map es =>
        rw [hnv] at h
        by_cases hb : truthy (.map es) = true
        · rw [if_pos hb] at h
          exact absurd h (by simp)
        · rw [if_neg hb] at h
          obtain ⟨hG, hR, hUG, hmono, hlen, hinv, havail⟩ := ih st st' h
          refine ⟨hG, hR, hUG, hmono, ?_, hinv, ?_⟩
          · rw [hlen, List.countP_cons]
            simp only [docEntries, hnv]
            simp [hb]
          · intro q hq s0 hq1 hq2
            rcases List.mem_cons.mp hq with rfl | hq
            · exfalso
              have : (lookupA (docEntries (Yaml.map entries)) ("name")).getD .null =
                  Yaml.str s0 := by
                rw [hq1]; rfl
              rw [docEntries] at this
              rw [hnv] at this
              exact Yaml.noConfusion this
            · exact havail q hq s0 hq1 hq2
    | null => exact absurd h (by simp [procProxies])
    | bool b => exact absurd h (by simp [procProxies])
    | int n => exact absurd h (by simp [procProxies])
    | str s => exact absurd h (by simp [procProxies])
    | seq l => exact absurd h (by simp [procProxies])

theorem seenAfter_mono (l : List (String × Yaml)) :
    ∀ seen n, n ∈ seen → n ∈ seenAfter seen l := by
  induction l with
  | nil => exact fun seen n hn => hn
  | cons e rest ih =>
    intro seen n hn
    obtain ⟨m, g⟩ := e
    simp only [seenAfter]
    by_cases hm : m ∈ seen
    · rw [if_pos hm]
      exact ih seen n hn
    · rw [if_neg hm]
      exact ih (m :: seen) n (List.mem_cons_of_mem _ hn)

theorem rewrittenGroup?_none_of_falsy (label : String) (entries : List (String × Yaml))
    (h : ¬ truthy ((lookupA entries ("name")).getD .null) = true) :
    rewrittenGroup? label (.map entries) = none := by
  cases hnv : (lookupA entries ("name")).getD .null with
  | str s =>
    rw [hnv] at h
    simp only [truthy, Bool.not_eq_true, Bool.not_eq_true'] at h
    simp [rewrittenGroup?, hnv, h]
  | null => simp [rewrittenGroup?, hnv]
  | bool b => simp [rewrittenGroup?, hnv]
  | int n => simp [rewrittenGroup?, hnv]
  | seq l => simp [rewrittenGroup?, hnv]
  | map es => simp [rewrittenGroup?, hnv]

theorem rewrittenGroup?_some (label : String) (entries : List (String × Yaml))
    (s : String) (memberItems : List Yaml) (newMembers : List String)
    (hnv : (lookupA entries ("name")).getD .null = .str s)
    (hne : s.data.isEmpty = false)
    (hmi : pyIter (pyOr ((lookupA entries ("proxies")).getD (.seq [])) (.seq [])) =
      .ok memberItems)
    (hmm : mapMembers label memberItems = .ok newMembers) :
    rewrittenGroup? label (.map entries) = some (applyPfx s label,
      .map (setA (setA entries ("name") (.str (applyPfx s label))) ("proxies")
        (.seq (newMembers.map Yaml.str)))) := by
  simp [rewrittenGroup?, hnv, hne, hmi, hmm]

theorem nameOf_group (entries : List (String × Yaml)) (f : String) (ms : List Yaml) :
    nameOf (.map (setA (setA entries ("name") (.str f)) ("proxies") (.seq ms))) = some f := by
  have h1 : lookupA (setA (setA entries ("name") (.str f)) ("proxies") (.seq ms)) ("name") =
      lookupA (setA entries ("name") (.str f)) ("name") :=
    lookupA_setA_ne _ _ _ _ (by decide)
  simp [nameOf, docEntries, h1, lookupA_setA_self]

theorem procGroups_facts (label : String) (items : List Yaml) :
    ∀ st st', procGroups label st items = .ok st' →
      st'.allProxies = st.allProxies ∧ st'.allRules = st.allRules ∧
      st'.usedProxyNames = st.usedProxyNames ∧
      (∀ n, n ∈ st.usedGroupNames → n ∈ st'.usedGroupNames) ∧
      st'.allGroups = st.allGroups ++
        keepFirstGroups st.usedGroupNames (items.filterMap (rewrittenGroup? label)) ∧
      st'.usedGroupNames = seenAfter st.usedGroupNames (items.filterMap (rewrittenGroup? label)) ∧
      ((namesOf st.allGroups).Nodup →
        (∀ n, n ∈ namesOf st.allGroups ↔ n ∈ st.usedGroupNames) →
        ((namesOf st'.allGroups).Nodup ∧
          (∀ n, n ∈ namesOf st'.allGroups ↔ n ∈ st'.usedGroupNames))) ∧
      (∀ g ∈ items, ∀ s, lookupA (docEntries g) ("name") = some (.str s) →
        ¬s.data.isEmpty = true → applyPfx s label ∈ st'.usedGroupNames) := by
  induction items with
  | nil =>
    intro st st' h
    injection h with h
    subst h
    refine ⟨rfl, rfl, rfl, fun n hn => hn, by simp [keepFirstGroups], by simp [seenAfter],
      fun h1 h2 => ⟨h1, h2⟩, ?_⟩
    intro g hg
    simp at hg
  | cons g rest ih =>
    intro st st' h
    cases g with
    | map entries =>
      simp only [procGroups] at h
      by_cases ht : truthy ((lookupA entries ("name")).getD .null) = true
      · rw [if_pos ht] at h
        split at h
        case _ s hnv =>
          have hne : s.data.isEmpty = false := by
            rw [hnv] at ht
            simpa [truthy] using ht
          split at h
          case _ e hmi =>
            simp at h
          case _ memberItems hmi =>
            split at h
            case _ e hmm =>
              simp at h
            case _ newMembers hmm =>
              have hfm : (Yaml.map entries :: rest).filterMap (rewrittenGroup? label) =
                  (applyPfx s label,
                    Yaml.map (setA (setA entries ("name") (.str (applyPfx s label))) ("proxies")
                      (.seq (newMembers.map Yaml.str)))) ::
                    rest.filterMap (rewrittenGroup? label) := by
                rw [List.filterMap_cons]
                rw [rewrittenGroup?_some label entries s memberItems newMembers hnv hne hmi hmm]
              by_cases hdup : applyPfx s label ∈ st.usedGroupNames
              · rw [if_pos hdup] at h
                obtain ⟨hP, hR, hUP, hmono, hG, hUG, hinv, havail⟩ := ih st st' h
                refine ⟨hP, hR, hUP, hmono, ?_, ?_, hinv, ?_⟩
                · rw [hG, hfm]
                  simp only [keepFirstGroups]
                  rw [if_pos hdup]
                · rw [hUG, hfm]
                  simp only [seenAfter]
                  rw [if_pos hdup]
                · intro q hq s0 hq1 hq2
                  rcases List.mem_cons.mp hq with rfl | hq
                  · have hsm : (lookupA (docEntries (Yaml.map entries)) ("name")).getD .null =
                        Yaml.str s0 := by
                      rw [hq1]; rfl
                    rw [docEntries] at hsm
                    rw [hnv] at hsm
                    injection hsm with hsm
                    subst hsm
                    exact hmono _ hdup
                  · exact havail q hq s0 hq1 hq2
              · rw [if_neg hdup] at h
                set g2 : Yaml :=
                  Yaml.map (setA (setA entries ("name") (.str (applyPfx s label))) ("proxies")
                    (.seq (newMembers.map Yaml.str))) with hg2
                set st2 : MSt :=
                  { st with
                    allGroups := st.allGroups ++ [g2],
                    usedGroupNames := applyPfx s label :: st.usedGroupNames } with hst2
                obtain ⟨hP, hR, hUP, hmono, hG, hUG, hinv, havail⟩ := ih st2 st' h
                refine ⟨hP, hR, hUP, ?_, ?_, ?_, ?_, ?_⟩
                · intro n hn
                  exact hmono n (List.mem_cons_of_mem _ hn)
                · rw [hG, hfm]
                  simp only [keepFirstGroups]
                  rw [if_neg hdup]
                  show st2.allGroups ++ _ = st.allGroups ++ (g2 :: _)
                  rw [hst2]
                  simp [List.append_assoc]
                · rw [hUG, hfm]
                  simp only [seenAfter]
                  rw [if_neg hdup]
                · intro hnd hiff
                  apply hinv
                  · show (namesOf (st.allGroups ++ [g2])).Nodup
                    rw [namesOf_append]
                    have hone : namesOf [g2] = [applyPfx s label] := by
                      simp [namesOf, hg2, nameOf_group]
                    rw [hone, List.nodup_append]
                    refine ⟨hnd, List.nodup_singleton _, fun a ha hb => ?_⟩
                    rw [List.mem_singleton] at hb
                    subst hb
                    exact hdup ((hiff _).mp ha)
                  · intro n
                    show n ∈ namesOf (st.allGroups ++ [g2]) ↔
                      n ∈ applyPfx s label :: st.usedGroupNames
                    rw [namesOf_append]
                    have hone : namesOf [g2] = [applyPfx s label] := by
                      simp [namesOf, hg2, nameOf_group]
                    rw [hone]
                    simp only [List.mem_append, List.mem_cons, List.not_mem_nil, or_false]
                    constructor
                    · rintro (hn | hn)
                      · exact Or.inr ((hiff n).mp hn)
                      · exact Or.inl hn
                    · rintro (hn | hn)
                      · exact Or.inr hn
                      · exact Or.inl ((hiff n).mpr hn)
                · intro q hq s0 hq1 hq2
                  rcases List.mem_cons.mp hq with rfl | hq
                  · have hsm : (lookupA (docEntries (Yaml.map entries)) ("name")).getD .null =
                        Yaml.str s0 := by
                      rw [hq1]; rfl
                    rw [docEntries] at hsm
                    rw [hnv] at hsm
                    injection hsm with hsm
                    subst hsm
                    exact hmono _ (List.mem_cons_self _ _)
                  · exact havail q hq s0 hq1 hq2
        case _ hnostr =>
          simp at h
      · rw [if_neg ht] at h
        obtain ⟨hP, hR, hUP, hmono, hG, hUG, hinv, havail⟩ := ih st st' h
        have hfm : (Yaml.map entries :: rest).filterMap (rewrittenGroup? label) =
            rest.filterMap (rewrittenGroup? label) := by
          rw [List.filterMap_cons, rewrittenGroup?_none_of_falsy label entries ht]
        refine ⟨hP, hR, hUP, hmono, by rw [hG, hfm], by rw [hUG, hfm], hinv, ?_⟩
        intro q hq s0 hq1 hq2
        rcases List.mem_cons.mp hq with rfl | hq
        · exfalso
          apply ht
          have hsm : (lookupA (docEntries (Yaml.map entries)) ("name")).getD .null =
              Yaml.str s0 := by
            rw [hq1]; rfl
          rw [docEntries] at hsm
          rw [hsm]
          simp [truthy, hq2]
        · exact havail q hq s0 hq1 hq2
    | null => exact absurd h (by simp [procGroups])
    | bool b => exact absurd h (by simp [procGroups])
    | int n => exact absurd h (by simp [procGroups])
    | str s => exact absurd h (by simp [procGroups])
    | seq l => exact absurd h (by simp [procGroups])

theorem procRules_facts (label : String) (items : List Yaml) :
    ∀ st st', procRules label st items = .ok st' →
      st'.allProxies = st.allProxies ∧ st'.allGroups = st.allGroups ∧
      st'.usedProxyNames = st.usedProxyNames ∧ st'.usedGroupNames = st.usedGroupNames ∧
      st'.allRules = st.allRules ++
        (items.filterMap fun r => match r with | Yaml.str s => some s | _ => none).map
          (fun r => rewriteRule label r) := by
  induction items with
  | nil =>
    intro st st' h
    injection h with h
    subst h
    exact ⟨rfl, rfl, rfl, rfl, by simp⟩
  | cons r rest ih =>
    intro st st' h
    cases r with
    | str s =>
      simp only [procRules] at h
      obtain ⟨hP, hG, hUP, hUG, hR⟩ :=
        ih { st with allRules := st.allRules ++ [rewriteRule label s] } st' h
      refine ⟨hP, hG, hUP, hUG, ?_⟩
      rw [hR]
      simp [List.append_assoc]
    | null => exact absurd h (by simp [procRules])
    | bool b => exact absurd h (by simp [procRules])
    | int n => exact absurd h (by simp [procRules])
    | seq l => exact absurd h (by simp [procRules])
    | map es => exact absurd h (by simp [procRules])

/-! ### Composing the phases -/

theorem keepFirstGroups_append (xs ys : List (String × Yaml)) :
    ∀ seen, keepFirstGroups seen (xs ++ ys) =
      keepFirstGroups seen xs ++ keepFirstGroups (seenAfter seen xs) ys := by
  induction xs with
  | nil => intro seen; simp [keepFirstGroups, seenAfter]
  | cons e rest ih =>
    intro seen
    obtain ⟨n, g⟩ := e
    show keepFirstGroups seen ((n, g) :: (rest ++ ys)) = _
    simp only [keepFirstGroups, seenAfter]
    by_cases hn : n ∈ seen
    · rw [if_pos hn, if_pos hn, if_pos hn, ih]
    · rw [if_neg hn, if_neg hn, if_neg hn, ih]
      simp

theorem seenAfter_append (xs ys : List (String × Yaml)) :
    ∀ seen, seenAfter seen (xs ++ ys) = seenAfter (seenAfter seen xs) ys := by
  induction xs with
  | nil => intro seen; simp [seenAfter]
  | cons e rest ih =>
    intro seen
    obtain ⟨n, g⟩ := e
    show seenAfter seen ((n, g) :: (rest ++ ys)) = _
    simp only [seenAfter]
    by_cases hn : n ∈ seen
    · rw [if_pos hn, if_pos hn, ih]
    · rw [if_neg hn, if_neg hn, ih]

theorem pyOr_seq_of_eq {v x : Yaml} (h : pyOr v (.seq []) = x) (hx : truthy x = false) :
    x = .seq [] := by
  unfold pyOr at h
  by_cases htv : truthy v = true
  · rw [if_pos htv] at h
    rw [← h] at hx
    rw [htv] at hx
    exact absurd hx (by simp)
  · rw [if_neg htv] at h
    exact h.symm

theorem iter_proxies_seq {v : Yaml} {items : List Yaml} {label : String} {st st' : MSt}
    (hi : pyIter (pyOr v (.seq [])) = .ok items)
    (hp : procProxies label st items = .ok st') :
    pyOr v (.seq []) = .seq items := by
  cases hv : pyOr v (.seq []) with
  | seq l =>
    rw [hv] at hi
    injection hi with hi
    rw [hi]
  | str s =>
    rw [hv] at hi
    injection hi with hi
    have hne : ¬ truthy (.str s) = false := by
      intro hf
      have := pyOr_seq_of_eq hv hf
      exact Yaml.noConfusion this
    have hsd : ¬ s.data.isEmpty = true := by
      intro hempty
      exact hne (by simp [truthy, hempty])
    cases hd : s.data with
    | nil => exact (hsd (by simp [hd])).elim
    | cons c cs =>
      rw [hd] at hi
      rw [← hi] at hp
      exact absurd hp (by simp [procProxies])
  | map es =>
    rw [hv] at hi
    injection hi with hi
    have hne : ¬ truthy (.map es) = false := by
      intro hf
      have := pyOr_seq_of_eq hv hf
      exact Yaml.noConfusion this
    cases hes : es with
    | nil => exact (hne (by simp [truthy, hes])).elim
    | cons e es' =>
      rw [hes] at hi
      rw [← hi] at hp
      exact absurd hp (by simp [procProxies])
  | null => rw [hv] at hi; exact absurd hi (by simp [pyIter])
  | bool b => rw [hv] at hi; exact absurd hi (by simp [pyIter])
  | int n => rw [hv] at hi; exact absurd hi (by simp [pyIter])

theorem iter_groups_seq {v : Yaml} {items : List Yaml} {label : String} {st st' : MSt}
    (hi : pyIter (pyOr v (.seq [])) = .ok items)
    (hp : procGroups label st items = .ok st') :
    pyOr v (.seq []) = .seq items := by
  cases hv : pyOr v (.seq []) with
  | seq l =>
    rw [hv] at hi
    injection hi with hi
    rw [hi]
  | str s =>
    rw [hv] at hi
    injection hi with hi
    have hne : ¬ truthy (.str s) = false := by
      intro hf
      have := pyOr_seq_of_eq hv hf
      exact Yaml.noConfusion this
    have hsd : ¬ s.data.isEmpty = true := by
      intro hempty
      exact hne (by simp [truthy, hempty])
    cases hd : s.data with
    | nil => exact (hsd (by simp [hd])).elim
    | cons c cs =>
      rw [hd] at hi
      rw [← hi] at hp
      exact absurd hp (by simp [procGroups])
  | map es =>
    rw [hv] at hi
    injection hi with hi
    have hne : ¬ truthy (.map es) = false := by
      intro hf
      have := pyOr_seq_of_eq hv hf
      exact Yaml.noConfusion this
    cases hes : es with
    | nil => exact (hne (by simp [truthy, hes])).elim
    | cons e es' =>
      rw [hes] at hi
      rw [← hi] at hp
      exact absurd hp (by simp [procGroups])
  | null => rw [hv] at hi; exact absurd hi (by simp [pyIter])
  | bool b => rw [hv] at hi; exact absurd hi (by simp [pyIter])
  | int n => rw [hv] at hi; exact absurd hi (by simp [pyIter])

theorem sourcePhase_facts {st st' : MSt} {c : Option Yaml} {l : String}
    (h : sourcePhase st (c, l) = .ok st') :
    ∃ entries st1 st2 ritems,
      safeLoadYaml c = .map entries ∧
      procProxies l st (sourceItems c ("proxies")) = .ok st1 ∧
      procGroups l st1 (sourceItems c ("proxy-groups")) = .ok st2 ∧
      pyIter (pyOr ((lookupA entries ("rules")).getD (.seq [])) (.seq [])) = .ok ritems ∧
      procRules l st2 ritems = .ok st' := by
  simp only [sourcePhase] at h
  cases hload : safeLoadYaml c with
  | map entries =>
    rw [hload] at h
    simp only [pyGet] at h
    split at h
    case _ e hpi => simp at h
    case _ pitems hpi =>
      split at h
      case _ e hp1 => simp at h
      case _ st1 hp1 =>
        split at h
        case _ e hgi => simp at h
        case _ gitems hgi =>
          split at h
          case _ e hg1 => simp at h
          case _ st2 hg1 =>
            split at h
            case _ e hri => simp at h
            case _ ritems hri =>
              have hpseq := iter_proxies_seq hpi hp1
              have hgseq := iter_groups_seq hgi hg1
              have hpitems : sourceItems c ("proxies") = pitems := by
                simp [sourceItems, hload, hpseq]
              have hgitems : sourceItems c ("proxy-groups") = gitems := by
                simp [sourceItems, hload, hgseq]
              exact ⟨entries, st1, st2, ritems, rfl, hpitems ▸ hp1, hgitems ▸ hg1, hri, h⟩
  | null => rw [hload] at h; simp [pyGet] at h
  | bool b => rw [hload] at h; simp [pyGet] at h
  | int n => rw [hload] at h; simp [pyGet] at h
  | str s => rw [hload] at h; simp [pyGet] at h
  | seq l2 => rw [hload] at h; simp [pyGet] at h

theorem runConfigs_facts (configs : List (Option Yaml × String)) :
    ∀ st st', runConfigs st configs = .ok st' →
      (∀ n, n ∈ st.usedProxyNames → n ∈ st'.usedProxyNames) ∧
      (∀ n, n ∈ st.usedGroupNames → n ∈ st'.usedGroupNames) ∧
      (∃ ext, st'.allRules = st.allRules ++ ext) ∧
      st'.allProxies.length = st.allProxies.length +
        (configs.map (fun e => (sourceItems e.1 ("proxies")).countP
          (fun p => truthy ((lookupA (docEntries p) ("name")).getD .null)))).sum ∧
      st'.allGroups = st.allGroups ++ keepFirstGroups st.usedGroupNames
        (configs.flatMap (fun e => (sourceItems e.1 ("proxy-groups")).filterMap
          (rewrittenGroup? e.2))) ∧
      st'.usedGroupNames = seenAfter st.usedGroupNames
        (configs.flatMap (fun e => (sourceItems e.1 ("proxy-groups")).filterMap
          (rewrittenGroup? e.2))) ∧
      ((namesOf st.allProxies).Nodup →
        (∀ n, n ∈ namesOf st.allProxies ↔ n ∈ st.usedProxyNames) →
        ((namesOf st'.allProxies).Nodup ∧
          (∀ n, n ∈ namesOf st'.allProxies ↔ n ∈ st'.usedProxyNames))) ∧
      ((namesOf st.allGroups).Nodup →
        (∀ n, n ∈ namesOf st.allGroups ↔ n ∈ st.usedGroupNames) →
        ((namesOf st'.allGroups).Nodup ∧
          (∀ n, n ∈ namesOf st'.allGroups ↔ n ∈ st'.usedGroupNames))) ∧
      (∀ e ∈ configs, ∀ p ∈ sourceItems e.1 ("proxies"), ∀ s,
        lookupA (docEntries p) ("name") = some (.str s) → ¬s.data.isEmpty = true →
        applyPfx s e.2 ∈ st'.usedProxyNames) ∧
      (∀ e ∈ configs, ∀ g ∈ sourceItems e.1 ("proxy-groups"), ∀ s,
        lookupA (docEntries g) ("name") = some (.str s) → ¬s.data.isEmpty = true →
        applyPfx s e.2 ∈ st'.usedGroupNames) := by
  induction configs with
  | nil =>
    intro st st' h
    injection h with h
    subst h
    refine ⟨fun n hn => hn, fun n hn => hn, ⟨[], by simp⟩, by simp, by simp [keepFirstGroups],
      by simp [seenAfter], fun h1 h2 => ⟨h1, h2⟩, fun h1 h2 => ⟨h1, h2⟩, ?_, ?_⟩ <;>
      (intro e he; simp at he)
  | cons e rest ih =>
    intro st st' h
    obtain ⟨c, l⟩ := e
    simp only [runConfigs] at h
    cases hsp : sourcePhase st (c, l) with
    | error er => rw [hsp] at h; simp at h
    | ok st1 =>
      rw [hsp] at h
      obtain ⟨entries, stp, stg, ritems, hload, hp1, hg1, hri, hr1⟩ := sourcePhase_facts hsp
      obtain ⟨pG, pR, pUG, pmono, plen, pinv, pavail⟩ :=
        procProxies_facts l (sourceItems c ("proxies")) st stp hp1
      obtain ⟨gP, gR, gUP, gmono, gG, gUG, ginv, gavail⟩ :=
        procGroups_facts l (sourceItems c ("proxy-groups")) stp stg hg1
      obtain ⟨rP, rG, rUP, rUG, rR⟩ := procRules_facts l ritems stg st1 hr1
      obtain ⟨imonoP, imonoG, ⟨ext, iext⟩, ilen, iG, iUG, iinvP, iinvG, iavailP, iavailG⟩ :=
        ih st1 st' h
      have hupEq : st1.usedProxyNames = stp.usedProxyNames := by rw [rUP, gUP]
      have hapEq : st1.allProxies = stp.allProxies := by rw [rP, gP]
      have hagEq : st1.allGroups = stg.allGroups := by rw [rG]
      have hugEq : st1.usedGroupNames = stg.usedGroupNames := by rw [rUG]
      refine ⟨?_, ?_, ?_, ?_, ?_, ?_, ?_, ?_, ?_, ?_⟩
      · intro n hn
        apply imonoP
        rw [hupEq]
        exact pmono n hn
      · intro n hn
        apply imonoG
        rw [hugEq, gUG]
        exact seenAfter_mono _ _ n (pUG ▸ hn)
      · refine ⟨(ritems.filterMap fun r => match r with
          | Yaml.str s => some s | _ => none).map (fun r => rewriteRule l r) ++ ext, ?_⟩
        rw [iext, rR, gR, pR, List.append_assoc]
      · rw [ilen, hapEq, plen]
        simp only [List.map_cons, List.sum_cons]
        omega
      · rw [iG, hagEq, gG, pG, pUG]
        rw [List.flatMap_cons, keepFirstGroups_append, List.append_assoc]
        congr 2
        rw [hugEq, gUG, pUG]
      · rw [iUG, hugEq, gUG, pUG]
        rw [List.flatMap_cons, seenAfter_append]
      · intro hnd hiff
        have hstp := pinv hnd hiff
        apply iinvP
        · rw [hapEq]
          exact hstp.1
        · intro n
          rw [hapEq, hupEq]
          exact hstp.2 n
      · intro hnd hiff
        have hstg := ginv (by rw [pG]; exact hnd) (by rw [pG, pUG]; exact hiff)
        apply iinvG
        · rw [hagEq]
          exact hstg.1
        · intro n
          rw [hagEq, hugEq]
          exact hstg.2 n
      · intro e' he' p hp s hs1 hs2
        rcases List.mem_cons.mp he' with rfl | he'
        · apply imonoP
          rw [hupEq]
          exact pavail p hp s hs1 hs2
        · exact iavailP e' he' p hp s hs1 hs2
      · intro e' he' g hg s hs1 hs2
        rcases List.mem_cons.mp he' with rfl | he'
        · apply imonoG
          rw [hugEq]
          exact gavail g hg s hs1 hs2
        · exact iavailG e' he' g hg s hs1 hs2

/-! ### From a successful merge to the document's collections -/

theorem merge_ok_elim {c : Option Yaml} {l : String} {rest : List (Option Yaml × String)}
    {customRules : Option (List String)} {doc : Yaml}
    (hm : mergeClashConfigs ((c, l) :: rest) customRules = .ok doc) :
    ∃ st entries, runConfigs (initState customRules) ((c, l) :: rest) = .ok st ∧
      safeLoadYaml c = .map entries ∧
      doc = .map (setA (setA (setA entries ("proxies") (.seq st.allProxies))
        ("proxy-groups") (.seq st.allGroups))
        ("rules") (.seq ((dedupRulesAux [] st.allRules).map Yaml.str))) := by
  simp only [mergeClashConfigs] at hm
  cases hrun : runConfigs (initState customRules) ((c, l) :: rest) with
  | error e => rw [hrun] at hm; simp at hm
  | ok st =>
    rw [hrun] at hm
    cases hload : safeLoadYaml c with
    | map entries =>
      rw [hload] at hm
      simp only [Except.ok.injEq] at hm
      exact ⟨st, entries, rfl, rfl, hm.symm⟩
    | null => rw [hload] at hm; simp at hm
    | bool b => rw [hload] at hm; simp at hm
    | int n => rw [hload] at hm; simp at hm
    | str s => rw [hload] at hm; simp at hm
    | seq l2 => rw [hload] at hm; simp at hm

theorem doc_proxies (entries : List (String × Yaml)) (P G : List Yaml) (R : List Yaml) :
    proxiesOf (.map (setA (setA (setA entries ("proxies") (.seq P))
      ("proxy-groups") (.seq G)) ("rules") (.seq R))) = P := by
  unfold proxiesOf docEntries
  rw [lookupA_setA_ne _ _ _ _ (by decide), lookupA_setA_ne _ _ _ _ (by decide),
    lookupA_setA_self]
  rfl

theorem doc_groups (entries : List (String × Yaml)) (P G : List Yaml) (R : List Yaml) :
    groupsOf (.map (setA (setA (setA entries ("proxies") (.seq P))
      ("proxy-groups") (.seq G)) ("rules") (.seq R))) = G := by
  unfold groupsOf docEntries
  rw [lookupA_setA_ne _ _ _ _ (by decide), lookupA_setA_self]
  rfl

theorem doc_rules (entries : List (String × Yaml)) (P G : List Yaml) (R : List Yaml) :
    ruleItemsOf (.map (setA (setA (setA entries ("proxies") (.seq P))
      ("proxy-groups") (.seq G)) ("rules") (.seq R))) = R := by
  unfold ruleItemsOf docEntries
  rw [lookupA_setA_self]
  rfl

theorem filterMap_str_map (l : List String) :
    (l.map Yaml.str).filterMap
      (fun r => match r with | Yaml.str s => some s | _ => none) = l := by
  induction l with
  | nil => rfl
  | cons a rest ih => simp [List.filterMap_cons, ih]

/-! ### Claim C2: proxy name uniqueness -/

/-- C2: in a successfully merged document all proxy names are pairwise
distinct; every proxy with a truthy name from every source contributes
exactly one output proxy (colliding proxies all remain present); and the
collision policy is exactly: keep the prefixed name if unused, otherwise
append the first integer suffix `_1`, `_2`, … that is unused. -/
theorem C2_proxy_names_unique (configs : List (Option Yaml × String))
    (customRules : Option (List String)) (doc : Yaml)
    (hm : mergeClashConfigs configs customRules = .ok doc) :
    (namesOf (proxiesOf doc)).Nodup ∧
    (proxiesOf doc).length = (configs.map (fun e => (sourceItems e.1 ("proxies")).countP
      (fun p => truthy ((lookupA (docEntries p) ("name")).getD .null)))).sum ∧
    (∀ used orig, orig ∉ used → dedupName used orig = orig) ∧
    (∀ used orig, orig ∈ used → ∃ k, 1 ≤ k ∧ dedupName used orig = suffixedName orig k ∧
      suffixedName orig k ∉ used ∧ ∀ j, 1 ≤ j → j < k → suffixedName orig j ∈ used) := by
  refine ⟨?_, ?_, fun used orig => (dedupName_spec used orig).1,
    fun used orig => (dedupName_spec used orig).2⟩ <;>
  · cases configs with
    | nil =>
      have hdoc : doc = .map [] := by
        have : mergeClashConfigs [] customRules = .ok (.map []) := rfl
        rw [this] at hm
        injection hm with hm
        exact hm.symm
      subst hdoc
      simp [proxiesOf, docEntries, lookupA, seqItems, namesOf]
    | cons e rest =>
      obtain ⟨c, l⟩ := e
      obtain ⟨st, entries, hrun, hload, rfl⟩ := merge_ok_elim hm
      obtain ⟨-, -, -, hlen, -, -, hinvP, -, -, -⟩ :=
        runConfigs_facts ((c, l) :: rest) (initState customRules) st hrun
      have hinv := hinvP (by simp [initState, namesOf]) (by simp [initState, namesOf])
      rw [doc_proxies]
      first
      | exact hinv.1
      | (rw [hlen]; simp [initState])

theorem C2_witness :
    ∃ doc, mergeClashConfigs
        [(some (.map [(("proxies"), .seq [.map [(("name"), .str ("A"))],
          .map [(("name"), .str ("A"))]])]), ("s"))] none = .ok doc ∧
      (namesOf (proxiesOf doc)).Nodup := by
  have h : mergeClashConfigs
      [(some (.map [(("proxies"), .seq [.map [(("name"), .str ("A"))],
        .map [(("name"), .str ("A"))]])]), ("s"))] none =
      .ok (.map [(("proxies"), .seq [.map [(("name"), .str ("s_A"))],
        .map [(("name"), .str ("s_A_1"))]]), (("proxy-groups"), .seq []),
        (("rules"), .seq [])]) := by rfl
  exact ⟨_, h, (C2_proxy_names_unique _ none _ h).1⟩

/-! ### Claim C3: rule deduplication -/

theorem dedupRules_sublist : ∀ (seen rs : List String), List.Sublist (dedupRulesAux seen rs) rs := by
  intro seen rs
  induction rs generalizing seen with
  | nil => simp [dedupRulesAux]
  | cons rule rest ih =>
    rw [dedupRulesAux_cons]
    by_cases hk : ruleKey rule ∈ seen
    · rw [if_pos hk]
      exact List.Sublist.cons rule (ih seen)
    · rw [if_neg hk]
      exact List.Sublist.cons₂ rule (ih (ruleKey rule :: seen))

theorem dedupRules_keys : ∀ (seen rs : List String),
    ((dedupRulesAux seen rs).map ruleKey).Nodup ∧
      ∀ r ∈ dedupRulesAux seen rs, ruleKey r ∉ seen := by
  intro seen rs
  induction rs generalizing seen with
  | nil => simp [dedupRulesAux]
  | cons rule rest ih =>
    rw [dedupRulesAux_cons]
    by_cases hk : ruleKey rule ∈ seen
    · rw [if_pos hk]
      exact ih seen
    · rw [if_neg hk]
      obtain ⟨hnd, hdisj⟩ := ih (ruleKey rule :: seen)
      constructor
      · simp only [List.map_cons, List.nodup_cons]
        refine ⟨?_, hnd⟩
        intro hmem
        rw [List.mem_map] at hmem
        obtain ⟨r, hr, hkey⟩ := hmem
        exact hdisj r hr (hkey ▸ List.mem_cons_self _ _)
      · intro r hr
        rcases List.mem_cons.mp hr with rfl | hr
        · exact hk
        · exact fun hmem => hdisj r hr (List.mem_cons_of_mem _ hmem)

theorem dedupRules_first : ∀ (seen rs : List String), ∀ r ∈ dedupRulesAux seen rs,
    rs.find? (fun x => decide (ruleKey x = ruleKey r)) = some r := by
  intro seen rs
  induction rs generalizing seen with
  | nil => simp [dedupRulesAux]
  | cons rule rest ih =>
    intro r hr
    rw [dedupRulesAux_cons] at hr
    by_cases hk : ruleKey rule ∈ seen
    · rw [if_pos hk] at hr
      have hne : ruleKey rule ≠ ruleKey r := by
        intro heq
        exact (dedupRules_keys seen rest).2 r hr (heq ▸ hk)
      rw [List.find?_cons_of_neg _ (by simpa using hne)]
      exact ih seen r hr
    · rw [if_neg hk] at hr
      rcases List.mem_cons.mp hr with rfl | hr
      · rw [List.find?_cons_of_pos _ (by simp)]
      · have hne : ruleKey rule ≠ ruleKey r := by
          intro heq
          exact (dedupRules_keys (ruleKey rule :: seen) rest).2 r hr
            (heq ▸ List.mem_cons_self _ _)
        rw [List.find?_cons_of_neg _ (by simpa using hne)]
        exact ih (ruleKey rule :: seen) r hr

theorem dedupRules_covers : ∀ (seen rs : List String), ∀ r ∈ rs,
    ruleKey r ∈ seen ∨ ∃ r' ∈ dedupRulesAux seen rs, ruleKey r' = ruleKey r := by
  intro seen rs
  induction rs generalizing seen with
  | nil => simp
  | cons rule rest ih =>
    intro r hr
    rw [dedupRulesAux_cons]
    by_cases hk : ruleKey rule ∈ seen
    · rw [if_pos hk]
      rcases List.mem_cons.mp hr with rfl | hr
      · exact Or.inl hk
      · exact ih seen r hr
    · rw [if_neg hk]
      rcases List.mem_cons.mp hr with rfl | hr
      · exact Or.inr ⟨r, List.mem_cons_self _ _, rfl⟩
      · rcases ih (ruleKey rule :: seen) r hr with hmem | ⟨r', hr', hkey⟩
        · rcases List.mem_cons.mp hmem with heq | hmem
          · exact Or.inr ⟨rule, List.mem_cons_self _ _, heq.symm⟩
          · exact Or.inl hmem
        · exact Or.inr ⟨r', List.mem_cons_of_mem _ hr', hkey⟩

/-- C3: the merged document's rule list is the first-occurrence-per-key
filtering of the rule accumulator, in which the trimmed non-blank custom
rules come before all subscription-sourced rules: at most one rule per
dedup key survives, the survivor for each key is the first line with
that key in encounter order (so a custom rule beats any later
subscription rule with the same key), and every accumulated key is
represented.  The key is `MATCH` when the trimmed, uppercased first
field equals `MATCH`, else `TYPE "," trimmed second field` when a second
field exists. -/
theorem C3_rule_dedup (configs : List (Option Yaml × String))
    (customRules : Option (List String)) (doc : Yaml)
    (hm : mergeClashConfigs configs customRules = .ok doc) :
    ruleStrsOf doc = dedupRulesAux [] (mergedRuleAccum configs customRules) ∧
    (configs ≠ [] → ∃ subRules,
      mergedRuleAccum configs customRules = initRules customRules ++ subRules) ∧
    ((ruleStrsOf doc).map ruleKey).Nodup ∧
    List.Sublist (ruleStrsOf doc) (mergedRuleAccum configs customRules) ∧
    (∀ r ∈ ruleStrsOf doc,
      (mergedRuleAccum configs customRules).find?
        (fun x => decide (ruleKey x = ruleKey r)) = some r) ∧
    (∀ r ∈ mergedRuleAccum configs customRules,
      ∃ r' ∈ ruleStrsOf doc, ruleKey r' = ruleKey r) ∧
    (∀ rule, pyUpper (pyStrip ((pySplitOn ',' rule).headD (""))) = ("MATCH") →
      ruleKey rule = ("MATCH")) ∧
    (∀ rule, pyUpper (pyStrip ((pySplitOn ',' rule).headD (""))) ≠ ("MATCH") →
      (pySplitOn ',' rule).length ≥ 2 →
      ruleKey rule = pyUpper (pyStrip ((pySplitOn ',' rule).headD (""))) ++ (",") ++
        pyStrip ((pySplitOn ',' rule).getD 1 (""))) := by
  have hkey1 : ∀ rule, pyUpper (pyStrip ((pySplitOn ',' rule).headD (""))) = ("MATCH") →
      ruleKey rule = ("MATCH") := by
    intro rule hmatch
    simp only [ruleKey]
    rw [if_pos hmatch]
  have hkey2 : ∀ rule, pyUpper (pyStrip ((pySplitOn ',' rule).headD (""))) ≠ ("MATCH") →
      (pySplitOn ',' rule).length ≥ 2 →
      ruleKey rule = pyUpper (pyStrip ((pySplitOn ',' rule).headD (""))) ++ (",") ++
        pyStrip ((pySplitOn ',' rule).getD 1 ("")) := by
    intro rule hmatch hlen
    simp only [ruleKey]
    rw [if_neg hmatch, if_pos hlen]
  cases configs with
  | nil =>
    have hdoc : doc = .map [] := by
      have : mergeClashConfigs [] customRules = .ok (.map []) := rfl
      rw [this] at hm
      injection hm with hm
      exact hm.symm
    subst hdoc
    have hempty : ruleStrsOf (Yaml.map []) = [] := by
      simp [ruleStrsOf, ruleItemsOf, docEntries, lookupA, seqItems]
    have haccum : mergedRuleAccum [] customRules = [] := rfl
    rw [hempty, haccum]
    refine ⟨rfl, fun hne => absurd rfl hne, by simp, List.Sublist.refl [], ?_, ?_, hkey1, hkey2⟩
    · intro r hr
      simp at hr
    · intro r hr
      simp at hr
  | cons e rest =>
    obtain ⟨c, l⟩ := e
    obtain ⟨st, entries, hrun, hload, rfl⟩ := merge_ok_elim hm
    have haccum : mergedRuleAccum ((c, l) :: rest) customRules = st.allRules := by
      simp [mergedRuleAccum, hrun]
    obtain ⟨-, -, ⟨ext, hext⟩, -, -, -, -, -, -, -⟩ :=
      runConfigs_facts ((c, l) :: rest) (initState customRules) st hrun
    have hrules : ruleStrsOf (Yaml.map (setA (setA (setA entries ("proxies")
        (.seq st.allProxies)) ("proxy-groups") (.seq st.allGroups)) ("rules")
        (.seq ((dedupRulesAux [] st.allRules).map Yaml.str)))) =
        dedupRulesAux [] st.allRules := by
      unfold ruleStrsOf
      rw [doc_rules, filterMap_str_map]
    rw [hrules, haccum]
    refine ⟨rfl, fun _ => ⟨ext, by simpa [initState] using hext⟩,
      (dedupRules_keys [] st.allRules).1, dedupRules_sublist [] st.allRules,
      dedupRules_first [] st.allRules, ?_, hkey1, hkey2⟩
    intro r hr
    rcases dedupRules_covers [] st.allRules r hr with hmem | hcov
    · simp at hmem
    · exact hcov

/-! ### Claim C5: group-name uniqueness and first-seen-wins -/

theorem rewrittenGroup?_elim {label : String} {y : Yaml} {pr : String × Yaml}
    (h : rewrittenGroup? label y = some pr) :
    ∃ entries s memberItems newMembers,
      y = .map entries ∧
      (lookupA entries ("name")).getD .null = .str s ∧
      s.data.isEmpty = false ∧
      pyIter (pyOr ((lookupA entries ("proxies")).getD (.seq [])) (.seq [])) =
        .ok memberItems ∧
      mapMembers label memberItems = .ok newMembers ∧
      pr = (applyPfx s label,
        .map (setA (setA entries ("name") (.str (applyPfx s label))) ("proxies")
          (.seq (newMembers.map Yaml.str)))) := by
  cases y with
  | map entries =>
    simp only [rewrittenGroup?] at h
    split at h
    case _ s hnv =>
      split at h
      case isTrue hemp => exact absurd h (by simp)
      case isFalse hemp =>
        split at h
        case _ memberItems hmi =>
          split at h
          case _ newMembers hmm =>
            injection h with h
            exact ⟨entries, s, memberItems, newMembers, rfl, hnv, by simpa using hemp,
              hmi, hmm, h.symm⟩
          case _ e hmm => exact absurd h (by simp)
        case _ e hmi => exact absurd h (by simp)
    case _ hnostr => exact absurd h (by simp)
  | null => exact absurd h (by simp [rewrittenGroup?])
  | bool b => exact absurd h (by simp [rewrittenGroup?])
  | int n => exact absurd h (by simp [rewrittenGroup?])
  | str s => exact absurd h (by simp [rewrittenGroup?])
  | seq l2 => exact absurd h (by simp [rewrittenGroup?])

theorem rewrittenGroup?_nameOf {label : String} {y : Yaml} {pr : String × Yaml}
    (h : rewrittenGroup? label y = some pr) : nameOf pr.2 = some pr.1 := by
  obtain ⟨entries, s, memberItems, newMembers, -, -, -, -, -, rfl⟩ := rewrittenGroup?_elim h
  exact nameOf_group entries (applyPfx s label) (newMembers.map Yaml.str)

theorem keepFirstGroups_mem : ∀ (seen : List String) (pairs : List (String × Yaml))
    (g : Yaml), g ∈ keepFirstGroups seen pairs → ∃ n, (n, g) ∈ pairs := by
  intro seen pairs
  induction pairs generalizing seen with
  | nil => intro g hg; simp [keepFirstGroups] at hg
  | cons pr rest ih =>
    intro g hg
    obtain ⟨m, g0⟩ := pr
    simp only [keepFirstGroups] at hg
    by_cases hm : m ∈ seen
    · rw [if_pos hm] at hg
      obtain ⟨n, hn⟩ := ih seen g hg
      exact ⟨n, List.mem_cons_of_mem _ hn⟩
    · rw [if_neg hm] at hg
      rcases List.mem_cons.mp hg with rfl | hg
      · exact ⟨m, List.mem_cons_self _ _⟩
      · obtain ⟨n, hn⟩ := ih (m :: seen) g hg
        exact ⟨n, List.mem_cons_of_mem _ hn⟩

theorem keepFirstGroups_name_not_seen (pairs : List (String × Yaml))
    (hcoh : ∀ pr ∈ pairs, nameOf pr.2 = some pr.1) :
    ∀ (seen : List String) (g : Yaml) (n : String),
      g ∈ keepFirstGroups seen pairs → nameOf g = some n → n ∉ seen := by
  induction pairs with
  | nil => intro seen g n hg; simp [keepFirstGroups] at hg
  | cons pr rest ih =>
    intro seen g n hg hn
    obtain ⟨m, g0⟩ := pr
    have hcoh0 : nameOf g0 = some m := hcoh (m, g0) (List.mem_cons_self _ _)
    have hcohr := fun x hx => hcoh x (List.mem_cons_of_mem _ hx)
    simp only [keepFirstGroups] at hg
    by_cases hm : m ∈ seen
    · rw [if_pos hm] at hg
      exact ih hcohr seen g n hg hn
    · rw [if_neg hm] at hg
      rcases List.mem_cons.mp hg with rfl | hg
      · rw [hcoh0] at hn
        injection hn with hn
        subst hn
        exact hm
      · have := ih hcohr (m :: seen) g n hg hn
        exact fun hmem => this (List.mem_cons_of_mem _ hmem)

theorem keepFirstGroups_first (pairs : List (String × Yaml))
    (hcoh : ∀ pr ∈ pairs, nameOf pr.2 = some pr.1) :
    ∀ (seen : List String) (g : Yaml) (n : String),
      g ∈ keepFirstGroups seen pairs → nameOf g = some n → n ∉ seen →
      pairs.find? (fun pr => decide (pr.1 = n)) = some (n, g) := by
  induction pairs with
  | nil => intro seen g n hg; simp [keepFirstGroups] at hg
  | cons pr rest ih =>
    intro seen g n hg hn hns
    obtain ⟨m, g0⟩ := pr
    have hcoh0 : nameOf g0 = some m := hcoh (m, g0) (List.mem_cons_self _ _)
    have hcohr := fun x hx => hcoh x (List.mem_cons_of_mem _ hx)
    simp only [keepFirstGroups] at hg
    by_cases hm : m ∈ seen
    · rw [if_pos hm] at hg
      have hne : m ≠ n := fun heq => hns (heq ▸ hm)
      rw [List.find?_cons_of_neg _ (by simpa using hne)]
      exact ih hcohr seen g n hg hn hns
    · rw [if_neg hm] at hg
      rcases List.mem_cons.mp hg with rfl | hg
      · rw [hcoh0] at hn
        injection hn with hn
        subst hn
        rw [List.find?_cons_of_pos _ (by simp)]
      · have hnm : n ∉ m :: seen :=
          keepFirstGroups_name_not_seen rest hcohr (m :: seen) g n hg hn
        have hne : m ≠ n := fun heq => hnm (heq ▸ List.mem_cons_self _ _)
        rw [List.find?_cons_of_neg _ (by simpa using hne)]
        exact ih hcohr (m :: seen) g n hg hn hnm

/-- C5: all proxy-group names in the merged document are pairwise
distinct; the emitted group list is exactly the first-seen-wins
filtering (by prefixed name) of the per-source rewritten groups in
processing order, so a group whose prefixed name was already emitted is
discarded in its entirety (neither merged nor renamed), and nameless
group records contribute nothing. -/
theorem C5_group_names_unique (configs : List (Option Yaml × String))
    (customRules : Option (List String)) (doc : Yaml)
    (hm : mergeClashConfigs configs customRules = .ok doc) :
    (namesOf (groupsOf doc)).Nodup ∧
    groupsOf doc = keepFirstGroups [] (configs.flatMap
      (fun e => (sourceItems e.1 ("proxy-groups")).filterMap (rewrittenGroup? e.2))) ∧
    (∀ g ∈ groupsOf doc, ∀ n, nameOf g = some n →
      (configs.flatMap (fun e => (sourceItems e.1 ("proxy-groups")).filterMap
        (rewrittenGroup? e.2))).find? (fun pr => decide (pr.1 = n)) = some (n, g)) := by
  have hcoh : ∀ pr ∈ configs.flatMap
      (fun e => (sourceItems e.1 ("proxy-groups")).filterMap (rewrittenGroup? e.2)),
      nameOf pr.2 = some pr.1 := by
    intro pr hpr
    rw [List.mem_flatMap] at hpr
    obtain ⟨e, -, hpr⟩ := hpr
    rw [List.mem_filterMap] at hpr
    obtain ⟨y, -, hy⟩ := hpr
    exact rewrittenGroup?_nameOf hy
  cases configs with
  | nil =>
    have hdoc : doc = .map [] := by
      have : mergeClashConfigs [] customRules = .ok (.map []) := rfl
      rw [this] at hm
      injection hm with hm
      exact hm.symm
    subst hdoc
    have hempty : groupsOf (Yaml.map []) = [] := by
      simp [groupsOf, docEntries, lookupA, seqItems]
    rw [hempty]
    refine ⟨by simp [namesOf], by simp [keepFirstGroups], ?_⟩
    intro g hg
    simp at hg
  | cons e rest =>
    obtain ⟨c, l⟩ := e
    obtain ⟨st, entries, hrun, hload, rfl⟩ := merge_ok_elim hm
    obtain ⟨-, -, -, -, hG, -, -, hinvG, -, -⟩ :=
      runConfigs_facts ((c, l) :: rest) (initState customRules) st hrun
    have hinv := hinvG (by simp [initState, namesOf]) (by simp [initState, namesOf])
    have hGdoc : groupsOf (Yaml.map (setA (setA (setA entries ("proxies")
        (.seq st.allProxies)) ("proxy-groups") (.seq st.allGroups)) ("rules")
        (.seq ((dedupRulesAux [] st.allRules).map Yaml.str)))) = st.allGroups :=
      doc_groups entries st.allProxies st.allGroups _
    rw [hGdoc]
    have hdecomp : st.allGroups = keepFirstGroups []
        (((c, l) :: rest).flatMap
          (fun e => (sourceItems e.1 ("proxy-groups")).filterMap (rewrittenGroup? e.2))) := by
      rw [hG]
      simp [initState]
    refine ⟨hinv.1, hdecomp, ?_⟩
    intro g hg n hn
    rw [hdecomp] at hg
    exact keepFirstGroups_first _ hcoh [] g n hg hn (by simp)

/-! ### Claim C4: references resolve after prefixing -/

theorem refOkB_elim {d : List String} {m : String} (h : refOkB d m = true) :
    reservedName m = true ∨ m ∈ d := by
  unfold refOkB at h
  simp only [Bool.or_eq_true, decide_eq_true_eq] at h
  exact h

theorem applyPfx_reserved {m : String} (h : reservedName m = true) (label : String) :
    applyPfx m label = m := by
  simp [applyPfx, h]

theorem truthyNamesOf_elim {records : List Yaml} {n : String}
    (h : n ∈ truthyNamesOf records) :
    ∃ r ∈ records, lookupA (docEntries r) ("name") = some (.str n) ∧
      n.data.isEmpty = false := by
  unfold truthyNamesOf at h
  rw [List.mem_filterMap] at h
  obtain ⟨r, hr, hfm⟩ := h
  cases hl : lookupA (docEntries r) ("name") with
  | none => rw [hl] at hfm; simp at hfm
  | some v =>
    rw [hl] at hfm
    cases v with
    | str s =>
      by_cases hemp : s.data.isEmpty = true
      · simp [hemp] at hfm
      · have hfm2 : (if s.data.isEmpty then none else some s) = some n := hfm
        rw [if_neg hemp] at hfm2
        injection hfm2 with hfm2
        subst hfm2
        exact ⟨r, hr, hl, by simpa using hemp⟩
    | null => simp at hfm
    | bool b => simp at hfm
    | int k => simp at hfm
    | seq l2 => simp at hfm
    | map es => simp at hfm

theorem mapMembers_elim (label : String) : ∀ (items : List Yaml) (ms : List String),
    mapMembers label items = .ok ms →
    ∀ m ∈ ms, ∃ m0, Yaml.str m0 ∈ items ∧ m = applyPfx m0 label := by
  intro items
  induction items with
  | nil =>
    intro ms h m hm
    injection h with h
    subst h
    simp at hm
  | cons y rest ih =>
    intro ms h m hm
    cases y with
    | str s =>
      simp only [mapMembers] at h
      cases hrec : mapMembers label rest with
      | error e => rw [hrec] at h; simp at h
      | ok ms' =>
        rw [hrec] at h
        injection h with h
        subst h
        rcases List.mem_cons.mp hm with rfl | hm
        · exact ⟨s, List.mem_cons_self _ _, rfl⟩
        · obtain ⟨m0, hm0, hm0eq⟩ := ih ms' hrec m hm
          exact ⟨m0, List.mem_cons_of_mem _ hm0, hm0eq⟩
    | null => exact absurd h (by simp [mapMembers])
    | bool b => exact absurd h (by simp [mapMembers])
    | int k => exact absurd h (by simp [mapMembers])
    | seq l2 => exact absurd h (by simp [mapMembers])
    | map es => exact absurd h (by simp [mapMembers])

theorem membersOf_group (entries : List (String × Yaml)) (f : String) (ms : List String) :
    membersOf (.map (setA (setA entries ("name") (.str f)) ("proxies")
      (.seq (ms.map Yaml.str)))) = ms := by
  cases ms with
  | nil => simp [membersOf, docEntries, lookupA_setA_self, pyOr, truthy]
  | cons a rest =>
    simp [membersOf, docEntries, lookupA_setA_self, pyOr, truthy]
    rw [← List.filterMap_map]
    exact filterMap_str_map rest

theorem sourceItems_wf_groups {c : Option Yaml} (hwf : wfDoc c = true) :
    ∀ y ∈ sourceItems c ("proxy-groups"), wfGroupRec y = true := by
  obtain ⟨entries, hload, -, hwg, -⟩ := wfDoc_elim c hwf
  obtain ⟨items, hpor, hok⟩ := wfSeqVal_elim _ _ hwg
  intro y hy
  have hsi : sourceItems c ("proxy-groups") = items := by
    simp [sourceItems, hload, hpor]
  exact hok y (hsi ▸ hy)

/-- C4: if every group-member reference and every rewritten rule's target
field in each (well-formed) source document is a reserved token or the
name of a proxy or proxy-group defined in that same source document,
then in the merged document every member of every emitted group, and the
prefixed target written into every rewritten rule, is a reserved token
or a name that exists among the merged proxies or merged proxy-groups. -/
theorem C4_references_resolve (configs : List (Option Yaml × String))
    (customRules : Option (List String)) (doc : Yaml)
    (hwf : ∀ e ∈ configs, wfDoc e.1 = true)
    (href : ∀ e ∈ configs, refsClosedB e.1 = true)
    (hm : mergeClashConfigs configs customRules = .ok doc) :
    (∀ g ∈ groupsOf doc, ∀ m ∈ membersOf g,
      reservedName m = true ∨ m ∈ namesOf (proxiesOf doc) ∨
        m ∈ namesOf (groupsOf doc)) ∧
    (∀ e ∈ configs, ∀ r ∈ sourceRuleStrs e.1, ∀ t, ruleTargetField r = some t →
      reservedName (applyPfx t e.2) = true ∨
        applyPfx t e.2 ∈ namesOf (proxiesOf doc) ∨
        applyPfx t e.2 ∈ namesOf (groupsOf doc)) := by
  cases configs with
  | nil =>
    have hdoc : doc = .map [] := by
      have : mergeClashConfigs [] customRules = .ok (.map []) := rfl
      rw [this] at hm
      injection hm with hm
      exact hm.symm
    subst hdoc
    have hempty : groupsOf (Yaml.map []) = [] := by
      simp [groupsOf, docEntries, lookupA, seqItems]
    refine ⟨?_, ?_⟩
    · rw [hempty]
      intro g hg
      simp at hg
    · intro e he
      simp at he
  | cons e rest =>
    obtain ⟨c, l⟩ := e
    obtain ⟨st, entries, hrun, hload, rfl⟩ := merge_ok_elim hm
    obtain ⟨-, -, -, -, hG, -, hinvP, hinvG, availP, availG⟩ :=
      runConfigs_facts ((c, l) :: rest) (initState customRules) st hrun
    have hPiff := (hinvP (by simp [initState, namesOf]) (by simp [initState, namesOf])).2
    have hGiff := (hinvG (by simp [initState, namesOf]) (by simp [initState, namesOf])).2
    have hPdoc : proxiesOf (Yaml.map (setA (setA (setA entries ("proxies")
        (.seq st.allProxies)) ("proxy-groups") (.seq st.allGroups)) ("rules")
        (.seq ((dedupRulesAux [] st.allRules).map Yaml.str)))) = st.allProxies :=
      doc_proxies entries st.allProxies st.allGroups _
    have hGdoc : groupsOf (Yaml.map (setA (setA (setA entries ("proxies")
        (.seq st.allProxies)) ("proxy-groups") (.seq st.allGroups)) ("rules")
        (.seq ((dedupRulesAux [] st.allRules).map Yaml.str)))) = st.allGroups :=
      doc_groups entries st.allProxies st.allGroups _
    rw [hPdoc, hGdoc]
    have availName : ∀ e' ∈ (c, l) :: rest, ∀ m0, m0 ∈ definedNames e'.1 →
        applyPfx m0 e'.2 ∈ namesOf st.allProxies ∨
          applyPfx m0 e'.2 ∈ namesOf st.allGroups := by
      intro e' he' m0 hm0
      rcases List.mem_append.mp hm0 with hm0 | hm0
      · obtain ⟨p, hp, hlook, hempt⟩ := truthyNamesOf_elim hm0
        refine Or.inl ((hPiff _).mpr ?_)
        exact availP e' he' p hp m0 hlook (by simp [hempt])
      · obtain ⟨g, hg, hlook, hempt⟩ := truthyNamesOf_elim hm0
        refine Or.inr ((hGiff _).mpr ?_)
        exact availG e' he' g hg m0 hlook (by simp [hempt])
    refine ⟨?_, ?_⟩
    · intro g hg m hmem
      have hdecomp : st.allGroups = keepFirstGroups []
          (((c, l) :: rest).flatMap
            (fun e => (sourceItems e.1 ("proxy-groups")).filterMap
              (rewrittenGroup? e.2))) := by
        rw [hG]
        simp [initState]
      rw [hdecomp] at hg
      obtain ⟨n, hng⟩ := keepFirstGroups_mem _ _ g hg
      rw [List.mem_flatMap] at hng
      obtain ⟨e', he', hng⟩ := hng
      rw [List.mem_filterMap] at hng
      obtain ⟨y, hy, hrw⟩ := hng
      obtain ⟨entries', s, memberItems, newMembers, hy2, hnv, hemp, hmi, hmm, hpr⟩ :=
        rewrittenGroup?_elim hrw
      have hgeq : g = .map (setA (setA entries' ("name") (.str (applyPfx s e'.2)))
          ("proxies") (.seq (newMembers.map Yaml.str))) := by
        have := congrArg Prod.snd hpr
        simpa using this
      have hmemg : membersOf g = newMembers := by
        rw [hgeq]
        exact membersOf_group entries' (applyPfx s e'.2) newMembers
      rw [hmemg] at hmem
      obtain ⟨m0, hm0in, rfl⟩ := mapMembers_elim e'.2 memberItems newMembers hmm m hmem
      -- the source member list is a sequence of strings (well-formedness)
      have hwfg := sourceItems_wf_groups (hwf e' he') y (hy2 ▸ hy)
      rw [hy2] at hwfg
      simp only [wfGroupRec, Bool.and_eq_true] at hwfg
      obtain ⟨items2, hpor2, hok2⟩ := wfSeqVal_elim _ _ hwfg.2
      rw [hpor2] at hmi
      have hmemItems : memberItems = items2 := by
        injection hmi with hmi
        exact hmi.symm
      have hm0mem : m0 ∈ membersOf y := by
        rw [hy2]
        unfold membersOf docEntries
        rw [hpor2]
        rw [List.mem_filterMap]
        exact ⟨Yaml.str m0, hmemItems ▸ hm0in, rfl⟩
      have hm0ref : m0 ∈ sourceGroupMemberRefs e'.1 := by
        unfold sourceGroupMemberRefs
        rw [List.mem_flatMap]
        exact ⟨y, hy, hm0mem⟩
      have hrefc := href e' he'
      unfold refsClosedB at hrefc
      simp only [Bool.and_eq_true, List.all_eq_true] at hrefc
      have hok : refOkB (definedNames e'.1) m0 = true := hrefc.1 m0 hm0ref
      rcases refOkB_elim hok with hres | hdef
      · rw [applyPfx_reserved hres]
        exact Or.inl hres
      · exact Or.inr (availName e' he' m0 hdef)
    · intro e' he' r hr t ht
      have hrefc := href e' he'
      unfold refsClosedB at hrefc
      simp only [Bool.and_eq_true, List.all_eq_true] at hrefc
      have hok := hrefc.2 r hr
      rw [ht] at hok
      rcases refOkB_elim hok with hres | hdef
      · rw [applyPfx_reserved hres]
        exact Or.inl hres
      · exact Or.inr (availName e' he' t hdef)

theorem C3_witness :
    ∃ doc, mergeClashConfigs
        [(some (.map [(("rules"), .seq [.str ("DOMAIN,x.com,A")])]), ("s"))]
        (some [("DOMAIN,x.com,DIRECT")]) = .ok doc ∧
      ruleStrsOf doc = dedupRulesAux []
        (mergedRuleAccum [(some (.map [(("rules"), .seq [.str ("DOMAIN,x.com,A")])]), ("s"))]
          (some [("DOMAIN,x.com,DIRECT")])) ∧
      ((ruleStrsOf doc).map ruleKey).Nodup := by
  have h : mergeClashConfigs
      [(some (.map [(("rules"), .seq [.str ("DOMAIN,x.com,A")])]), ("s"))]
      (some [("DOMAIN,x.com,DIRECT")]) =
      .ok (.map [(("rules"), .seq [.str ("DOMAIN,x.com,DIRECT")]),
        (("proxies"), .seq []), (("proxy-groups"), .seq [])]) := by rfl
  have hc := C3_rule_dedup _ _ _ h
  exact ⟨_, h, hc.1, hc.2.2.1⟩

theorem C5_witness :
    ∃ doc, mergeClashConfigs
        [(some (.map [(("proxy-groups"), .seq [
          .map [(("name"), .str ("G")), (("proxies"), .seq [.str ("DIRECT")])],
          .map [(("name"), .str ("G"))]])]), ("s"))] none = .ok doc ∧
      (namesOf (groupsOf doc)).Nodup := by
  have h : mergeClashConfigs
      [(some (.map [(("proxy-groups"), .seq [
        .map [(("name"), .str ("G")), (("proxies"), .seq [.str ("DIRECT")])],
        .map [(("name"), .str ("G"))]])]), ("s"))] none =
      .ok (.map [(("proxy-groups"), .seq [
        .map [(("name"), .str ("s_G")), (("proxies"), .seq [.str ("DIRECT")])]]),
        (("proxies"), .seq []), (("rules"), .seq [])]) := by rfl
  exact ⟨_, h, (C5_group_names_unique _ none _ h).1⟩

theorem C4_witness :
    ∃ doc, mergeClashConfigs
        [(some (.map [
          (("proxies"), .seq [.map [(("name"), .str ("A"))]]),
          (("proxy-groups"), .seq [.map [(("name"), .str ("G")),
            (("proxies"), .seq [.str ("A"), .str ("DIRECT")])]]),
          (("rules"), .seq [.str ("DOMAIN,x.com,A")])]), ("s"))] none = .ok doc ∧
      (∀ g ∈ groupsOf doc, ∀ m ∈ membersOf g,
        reservedName m = true ∨ m ∈ namesOf (proxiesOf doc) ∨
          m ∈ namesOf (groupsOf doc)) := by
  have h : mergeClashConfigs
      [(some (.map [
        (("proxies"), .seq [.map [(("name"), .str ("A"))]]),
        (("proxy-groups"), .seq [.map [(("name"), .str ("G")),
          (("proxies"), .seq [.str ("A"), .str ("DIRECT")])]]),
        (("rules"), .seq [.str ("DOMAIN,x.com,A")])]), ("s"))] none =
      .ok (.map [
        (("proxies"), .seq [.map [(("name"), .str ("s_A"))]]),
        (("proxy-groups"), .seq [.map [(("name"), .str ("s_G")),
          (("proxies"), .seq [.str ("s_A"), .str ("DIRECT")])]]),
        (("rules"), .seq [.str ("DOMAIN,x.com,s_A")])]) := by rfl
  exact ⟨_, h, (C4_references_resolve _ none _ (by decide) (by decide) h).1⟩

/-! ### Claim C10: per-key handling of absent and null collections -/

theorem coerced_empty {entries : List (String × Yaml)} {key : String}
    (h : lookupA entries key = none ∨ lookupA entries key = some .null) :
    pyOr ((lookupA entries key).getD (.seq [])) (.seq []) = .seq [] := by
  rcases h with h | h <;> rw [h] <;> rfl

theorem sourceItems_empty {content : Option Yaml} {entries : List (String × Yaml)}
    {key : String} (hload : safeLoadYaml content = .map entries)
    (h : lookupA entries key = none ∨ lookupA entries key = some .null) :
    sourceItems content key = [] := by
  simp [sourceItems, hload, coerced_empty h]

/-- C10: each of the three collection keys is handled independently: a
source whose `proxies`, `proxy-groups` or `rules` key is absent or null
has that key treated as an empty sequence — the `.get` access and the
`or []` coercion yield `[]` without error, and the loop over it
contributes nothing — so on an arbitrary mixed document the absent or
null key leaves the corresponding merged collections and name registries
untouched, a document with all three keys absent or null is a complete
no-op, and passing `custom_rules` as `None` behaves identically to
passing an empty list. -/
theorem C10_absent_null_collections :
    (∀ (entries : List (String × Yaml)) (key : String),
      lookupA entries key = none ∨ lookupA entries key = some .null →
      pyGet (.map entries) key (.seq []) = .ok ((lookupA entries key).getD (.seq [])) ∧
      pyOr ((lookupA entries key).getD (.seq [])) (.seq []) = .seq [] ∧
      pyIter (pyOr ((lookupA entries key).getD (.seq [])) (.seq [])) = .ok [] ∧
      (∀ (label : String) (st : MSt), procProxies label st [] = .ok st) ∧
      (∀ (label : String) (st : MSt), procGroups label st [] = .ok st) ∧
      (∀ (label : String) (st : MSt), procRules label st [] = .ok st)) ∧
    (∀ (st st' : MSt) (content : Option Yaml) (label : String)
        (entries : List (String × Yaml)),
      safeLoadYaml content = .map entries →
      sourcePhase st (content, label) = .ok st' →
      ((lookupA entries ("proxies") = none ∨ lookupA entries ("proxies") = some .null) →
        st'.allProxies = st.allProxies ∧ st'.usedProxyNames = st.usedProxyNames) ∧
      ((lookupA entries ("proxy-groups") = none ∨
          lookupA entries ("proxy-groups") = some .null) →
        st'.allGroups = st.allGroups ∧ st'.usedGroupNames = st.usedGroupNames) ∧
      ((lookupA entries ("rules") = none ∨ lookupA entries ("rules") = some .null) →
        st'.allRules = st.allRules)) ∧
    (∀ (st : MSt) (content : Option Yaml) (label : String)
        (entries : List (String × Yaml)),
      safeLoadYaml content = .map entries →
      (lookupA entries ("proxies") = none ∨ lookupA entries ("proxies") = some .null) →
      (lookupA entries ("proxy-groups") = none ∨
        lookupA entries ("proxy-groups") = some .null) →
      (lookupA entries ("rules") = none ∨ lookupA entries ("rules") = some .null) →
      sourcePhase st (content, label) = .ok st) ∧
    (∀ configs, mergeClashConfigs configs none = mergeClashConfigs configs (some [])) := by
  refine ⟨?_, ?_, ?_, ?_⟩
  · intro entries key h
    refine ⟨rfl, coerced_empty h, ?_, fun label st => rfl, fun label st => rfl,
      fun label st => rfl⟩
    rw [coerced_empty h]
    rfl
  · intro st st' content label entries hload hsp
    obtain ⟨entries2, st1, st2, ritems, hload2, hp1, hg1, hri, hr1⟩ := sourcePhase_facts hsp
    rw [hload] at hload2
    injection hload2 with hE
    subst hE
    refine ⟨?_, ?_, ?_⟩
    · intro hp
      rw [sourceItems_empty hload hp] at hp1
      have hst1 : st = st1 := by injection hp1
      subst hst1
      obtain ⟨gP, gR, gUP, -, -, -, -, -⟩ :=
        procGroups_facts label (sourceItems content ("proxy-groups")) st st2 hg1
      obtain ⟨rP, rG, rUP, rUG, rR⟩ := procRules_facts label ritems st2 st' hr1
      exact ⟨by rw [rP, gP], by rw [rUP, gUP]⟩
    · intro hg
      rw [sourceItems_empty hload hg] at hg1
      have hst2 : st1 = st2 := by injection hg1
      subst hst2
      obtain ⟨pG, pR, pUG, -, -, -, -⟩ :=
        procProxies_facts label (sourceItems content ("proxies")) st st1 hp1
      obtain ⟨rP, rG, rUP, rUG, rR⟩ := procRules_facts label ritems st1 st' hr1
      exact ⟨by rw [rG, pG], by rw [rUG, pUG]⟩
    · intro hr
      rw [coerced_empty hr] at hri
      have hrit : ([] : List Yaml) = ritems := by injection hri
      subst hrit
      have hst' : st2 = st' := by injection hr1
      subst hst'
      obtain ⟨pG, pR, pUG, -, -, -, -⟩ :=
        procProxies_facts label (sourceItems content ("proxies")) st st1 hp1
      obtain ⟨gP, gR, gUP, -, -, -, -, -⟩ :=
        procGroups_facts label (sourceItems content ("proxy-groups")) st1 st2 hg1
      rw [gR, pR]
  · intro st content label entries hm hp hg hr
    rcases hp with hp | hp <;> rcases hg with hg | hg <;> rcases hr with hr | hr <;>
      simp [sourcePhase, hm, hp, hg, hr, pyGet, pyOr, truthy, pyIter,
        procProxies, procGroups, procRules]
  · intro configs
    rfl

theorem C10_witness :
    pyOr ((lookupA [(("rules"), Yaml.null)] ("rules")).getD (.seq [])) (.seq []) =
      .seq [] ∧
    (∃ st', sourcePhase (initState none)
        (some (.map [(("proxies"), .seq [.map [(("name"), .str ("A"))]]),
          (("rules"), Yaml.null)]), ("w")) = .ok st' ∧
      st'.allRules = (initState none).allRules ∧
      st'.allGroups = (initState none).allGroups ∧
      st'.usedGroupNames = (initState none).usedGroupNames) ∧
    sourcePhase (initState none) (some (.map [(("rules"), Yaml.null)]), ("w")) =
      .ok (initState none) ∧
    mergeClashConfigs [] none = mergeClashConfigs [] (some []) := by
  have hsp : sourcePhase (initState none)
      (some (.map [(("proxies"), .seq [.map [(("name"), .str ("A"))]]),
        (("rules"), Yaml.null)]), ("w")) =
      .ok ⟨[.map [(("name"), .str ("w_A"))]], [], [], [("w_A")], []⟩ := by rfl
  have h2 := (C10_absent_null_collections).2.1 (initState none)
      ⟨[.map [(("name"), .str ("w_A"))]], [], [], [("w_A")], []⟩
      (some (.map [(("proxies"), .seq [.map [(("name"), .str ("A"))]]),
        (("rules"), Yaml.null)])) ("w")
      [(("proxies"), Yaml.seq [Yaml.map [(("name"), Yaml.str ("A"))]]),
        (("rules"), Yaml.null)] rfl hsp
  refine ⟨((C10_absent_null_collections).1 [(("rules"), Yaml.null)] ("rules")
      (Or.inr rfl)).2.1,
    ⟨_, hsp, h2.2.2 (Or.inr rfl), (h2.2.1 (Or.inl rfl)).1, (h2.2.1 (Or.inl rfl)).2⟩,
    (C10_absent_null_collections).2.2.1 (initState none)
      (some (.map [(("rules"), Yaml.null)])) ("w") [(("rules"), Yaml.null)]
      rfl (Or.inl rfl) (Or.inl rfl) (Or.inr rfl),
    (C10_absent_null_collections).2.2.2 []⟩
